import Mathlib

/-!
Verification of the player-ranking engine (Leaderboard.cpp / PlayerStream.cpp).

The C++ core is embedded shallowly:
* vectors of records become `Array Player` (or `List Player` for stream contents);
* machine integer indices of the quickselect family (C++ `int`) become `Int`,
  and `players.size()-1` (a `size_t` subtraction converted to `int`) becomes
  the integer `size - 1`, matching the two's-complement behaviour at size 0;
* every element access is bounds-checked and fallible code runs in
  `Except RtErr`, so an out-of-bounds vector access surfaces as `.error .oob`
  instead of C++ undefined behaviour, and stream exhaustion as `.error .exhausted`;
* loops whose termination measure depends on run-time data take a fuel
  parameter and report `.error .fuel` on exhaustion; the proofs show the fuel
  passed by the entry points suffices;
* wall-clock timing (the `elapsed_` field) is not modelled.
-/

/-- Modelled from the spec: the scored-record type (the Player header of the
sorting project is not among the sources). Per the spec a Scored Record is an
immutable value with a display name and an ordered numeric rank key
(`level_`), and records are compared only by the rank key. -/
structure Player where
  name : String
  level : Nat
deriving Repr, DecidableEq

instance : Inhabited Player := ⟨⟨"", 0⟩⟩

/-- Runtime faults of the embedded code: an out-of-bounds vector access, the
ExhaustedSource error of a pull stream, and fuel exhaustion of the embedding. -/
inductive RtErr where
  | oob
  | exhausted
  | fuel
deriving Repr, DecidableEq

/-- RankingResult: the shared output value of the three ranking algorithms
(top players ascending, and the milestone-to-cutoff map). The cutoff map of
`std::unordered_map` is modelled as an association list in insertion order.
The `elapsed_` timing field is not modelled. -/
structure RankingResult where
  top : List Player
  cutoffs : List (Nat × Nat)
deriving Repr, DecidableEq

/-- Total read of position `i`, with a default out of range (used only to
state properties, never in the embedded code paths). -/
def aget (arr : Array Player) (i : Nat) : Player :=
  if h : i < arr.size then arr[i] else default

/-- Checked read of position `i` of the heap range `[0, sz)`; reading at or
past the end of the range is an out-of-bounds fault. -/
def readH (arr : Array Player) (sz i : Nat) : Except RtErr Player :=
  if h : i < sz ∧ i < arr.size then .ok arr[i] else .error .oob

/-- Checked write inside the heap range `[0, sz)`. -/
def writeH (arr : Array Player) (sz i : Nat) (v : Player) : Except RtErr (Array Player) :=
  if h : i < sz ∧ i < arr.size then .ok (arr.set ⟨i, h.2⟩ v) else .error .oob

/-- Checked `std::iter_swap` inside the heap range `[0, sz)`. -/
def swapH (arr : Array Player) (sz i j : Nat) : Except RtErr (Array Player) :=
  if h : i < sz ∧ j < sz ∧ i < arr.size ∧ j < arr.size then
    .ok (arr.swap ⟨i, h.2.2.1⟩ ⟨j, h.2.2.2⟩)
  else .error .oob

/-- Loop body of `Online::percolateDown` (Leaderboard.cpp): starting at index
`i` with `temp` the value initially at the root, repeatedly select the child
to descend into (larger child for a max heap, smaller for a min heap, only if
the right child exists, i.e. `child+1 != end`), swap when the child beats
`temp`, stop otherwise.  `sz` is `distance(start, end)`. -/
def pdLoop (sz : Nat) (mx : Bool) (temp : Player) :
    Nat → Array Player → Nat → Except RtErr (Array Player)
  | 0, _, _ => .error .fuel
  | fuel+1, arr, i =>
    if 2*i+1 < sz then do
      let left ← readH arr sz (2*i+1)
      let child ←
        if 2*i+2 ≠ sz then do
          let right ← readH arr sz (2*i+2)
          if mx = true ∧ left.level < right.level then pure (2*i+2)
          else if mx = false ∧ right.level < left.level then pure (2*i+2)
          else pure (2*i+1)
        else pure (2*i+1)
      let cv ← readH arr sz child
      if mx = true ∧ temp.level < cv.level then do
        let arr' ← swapH arr sz i child
        pdLoop sz mx temp fuel arr' child
      else if mx = false ∧ cv.level < temp.level then do
        let arr' ← swapH arr sz i child
        pdLoop sz mx temp fuel arr' child
      else pure arr
    else pure arr

/-- Online::percolateDown(root, start, end, max): `sz` is `distance(start,end)`
and `root` the index of the possibly misplaced node.  It first reads `*root`
into `temp` and then runs the sift-down loop.  The fuel `sz + 1` always
suffices because the current index strictly increases below `sz`. -/
def percolateDown (arr : Array Player) (sz root : Nat) (mx : Bool) :
    Except RtErr (Array Player) := do
  let temp ← readH arr sz root
  pdLoop sz mx temp (sz + 1) arr root

/-- Online::replaceMin(first, last, target): overwrite the root of the min
heap with `target`, then percolate down (min-oriented) from the root. -/
def replaceMin (arr : Array Player) (sz : Nat) (target : Player) :
    Except RtErr (Array Player) := do
  let arr1 ← writeH arr sz 0 target
  percolateDown arr1 sz 0 false

/-- Floyd heap-construction pass: percolate down at roots `j, j-1, ..., 0`. -/
def mkHeapAux (sz : Nat) (mx : Bool) : Nat → Array Player → Except RtErr (Array Player)
  | 0, arr => percolateDown arr sz 0 mx
  | j+1, arr => do
    let arr' ← percolateDown arr sz (j+1) mx
    mkHeapAux sz mx j arr'

/-- Modelled from the spec: `std::make_heap` (the STL routine used by
`heapRank` with `std::less` and by `rankIncoming` with `std::greater`); the
standard only promises a permutation satisfying the heap property, and this
model realises it by a Floyd build driven by the repository's own
`percolateDown`, with the same root schedule (`sz/2` down to `0`) as the
repository's `Online::buildHeap`.  `mx = true` builds a max heap
(`std::less`), `mx = false` a min heap (`std::greater`). -/
def makeHeapModel (arr : Array Player) (sz : Nat) (mx : Bool) :
    Except RtErr (Array Player) :=
  if sz ≤ 1 then pure arr else mkHeapAux sz mx (sz / 2) arr

/-- Modelled from the spec: `std::pop_heap` on a max heap of size `sz`: swap
the maximum at the front with the last element of the range, then restore the
heap property on the shrunk range `[0, sz-1)` by a max-oriented sift down. -/
def popHeapModel (arr : Array Player) (sz : Nat) : Except RtErr (Array Player) :=
  if sz ≤ 1 then pure arr
  else do
    let arr1 ← swapH arr sz 0 (sz - 1)
    percolateDown arr1 (sz - 1) 0 true

/-- The deleteMax loop of Offline::heapRank: `count` pops, the first on the
range `[0, m)`, each subsequent pop on a range shorter by one. -/
def popLoop : Nat → Nat → Array Player → Except RtErr (Array Player)
  | 0, _, arr => pure arr
  | c+1, m, arr => do
    let arr' ← popHeapModel arr m
    popLoop c (m - 1) arr'

/-- Offline::heapRank(players): for size at most 1 return the population
itself as `top_`; otherwise compute `top_10 = floor(0.1*size)` (equal to
`size / 10` for every realistic size), build a max heap over the whole
vector, pop the maximum `top_10` times, and return the tail slice of length
`top_10` as `top_` with empty cutoffs. -/
def heapRank (players : Array Player) : Except RtErr RankingResult :=
  if players.size ≤ 1 then pure ⟨players.toList, []⟩
  else do
    let a1 ← makeHeapModel players players.size true
    let a2 ← popLoop (players.size / 10) players.size a1
    pure ⟨a2.toList.drop (players.size - players.size / 10), []⟩

/-- Checked read of `array[i]` for a C++ `int` index over the whole vector. -/
def readA (arr : Array Player) (i : Int) : Except RtErr Player :=
  if h : 0 ≤ i ∧ i.toNat < arr.size then .ok arr[i.toNat] else .error .oob

/-- Checked `std::swap(array[i], array[j])` for C++ `int` indices. -/
def swapA (arr : Array Player) (i j : Int) : Except RtErr (Array Player) :=
  if h : 0 ≤ i ∧ 0 ≤ j ∧ i.toNat < arr.size ∧ j.toNat < arr.size then
    .ok (arr.swap ⟨i.toNat, h.2.2.1⟩ ⟨j.toNat, h.2.2.2⟩)
  else .error .oob

/-- The for-loop of Offline::lomuto_partition: `j` runs from `low` to
`high - 1`; elements strictly greater than the pivot value are swapped to the
front, `i` counts them. -/
def lomutoLoop (pivot high : Int) :
    Array Player → Int → Int → Except RtErr (Array Player × Int)
  | arr, i, j =>
    if h : j < high then do
      let vj ← readA arr j
      let vp ← readA arr pivot
      if vp.level < vj.level then do
        let arr' ← swapA arr i j
        lomutoLoop pivot high arr' (i+1) (j+1)
      else lomutoLoop pivot high arr i (j+1)
    else pure (arr, i)
termination_by arr i j => (high - j).toNat
decreasing_by
  all_goals omega

/-- Offline::lomuto_partition(array, low, high, pivot): run the loop from
`i = j = low`, then swap the pivot into position `i` and return `i`. -/
def lomuto_partition (arr : Array Player) (low high pivot : Int) :
    Except RtErr (Array Player × Int) := do
  let (arr1, i) ← lomutoLoop pivot high arr low low
  let arr2 ← swapA arr1 pivot i
  pure (arr2, i)

/-- Left do-while scan of Offline::hoare_partition: increment `i`, read
`array[i]` (the read happens before the `i <= high` test short-circuits),
continue while the value is below the pivot value and `i <= high`. -/
def lscan (pv : Nat) (high : Int) : Array Player → Int → Except RtErr Int
  | arr, i => do
    let v ← readA arr (i+1)
    if h : v.level < pv ∧ i+1 ≤ high then lscan pv high arr (i+1) else pure (i+1)
termination_by arr i => (high - i).toNat
decreasing_by
  all_goals omega

/-- Right do-while scan of Offline::hoare_partition: decrement `j`, read
`array[j]`, continue while the value is above the pivot value and `j >= low`. -/
def rscan (pv : Nat) (low : Int) : Array Player → Int → Except RtErr Int
  | arr, j => do
    let v ← readA arr (j-1)
    if h : pv < v.level ∧ low ≤ j-1 then rscan pv low arr (j-1) else pure (j-1)
termination_by arr j => (j - low).toNat
decreasing_by
  all_goals omega

/-- The while(true) loop of Offline::hoare_partition: scan from both ends,
return `j` once the indices cross, otherwise swap and continue. -/
def hoareLoop (pv : Nat) (low high : Int) :
    Nat → Array Player → Int → Int → Except RtErr (Array Player × Int)
  | 0, _, _, _ => .error .fuel
  | fuel+1, arr, i, j => do
    let i' ← lscan pv high arr i
    let j' ← rscan pv low arr j
    if j' < i' then pure (arr, j')
    else do
      let arr' ← swapA arr i' j'
      hoareLoop pv low high fuel arr' i' j'

/-- Offline::hoare_partition(array, low, high, pivot): capture the pivot
value, then loop with `i = low - 1` and `j = high + 1`.  The internal fuel
covers the maximal number of loop iterations (the left index strictly
increases and stays at most `high + 1`). -/
def hoare_partition (arr : Array Player) (low high pivot : Int) :
    Except RtErr (Array Player × Int) := do
  let pvP ← readA arr pivot
  hoareLoop pvP.level low high ((high - low).toNat + 3) arr (low - 1) (high + 1)

/-- Offline::quickSelect(array, low, high, k): Lomuto-partition on the last
element, recurse into the side containing rank `k`; no-op when the range is
inverted or `low` negative. -/
def quickSelect : Nat → Array Player → Int → Int → Int → Except RtErr (Array Player)
  | 0, _, _, _, _ => .error .fuel
  | fuel+1, arr, low, high, k =>
    if low ≤ high ∧ 0 ≤ low then do
      let (arr', index) ← lomuto_partition arr low high high
      if index < k then quickSelect fuel arr' (index+1) high k
      else quickSelect fuel arr' low (index-1) k
    else pure arr

/-- Offline::quickSort(array, low, high): Hoare-partition on the last
element, recurse on `[low, pivot]` and `[pivot+1, high]`; no-op unless
`low < high` and `low >= 0`. -/
def quickSort : Nat → Array Player → Int → Int → Except RtErr (Array Player)
  | 0, _, _, _ => .error .fuel
  | fuel+1, arr, low, high =>
    if low < high ∧ 0 ≤ low then do
      let (arr', pivot) ← hoare_partition arr low high high
      let arr2 ← quickSort fuel arr' low pivot
      quickSort fuel arr2 (pivot+1) high
    else pure arr

/-- Offline::quickSelectRank(players): `top_10 = floor(0.1*size) = size/10`;
quickselect the top `top_10` to the front of the vector (the initial `high`
is the `int` value of `players.size()-1`, which is `-1` at size 0), quicksort
the prefix `[0, top_10-1]`, and return the first `top_10` players as `top_`
with empty cutoffs.  The fuel `size + 1` dominates both recursion depths. -/
def quickSelectRank (players : Array Player) : Except RtErr RankingResult := do
  let a1 ← quickSelect (players.size + 1) players 0 ((players.size : Int) - 1)
    ((players.size / 10 : Nat) : Int)
  let a2 ← quickSort (players.size + 1) a1 0 (((players.size / 10 : Nat) : Int) - 1)
  pure ⟨a2.toList.take (players.size / 10), []⟩

/-- A pull stream of players over a state type: `remaining` and `nextPlayer`
(the abstract PlayerStream interface; `nextPlayer` returns the record and the
advanced stream state, or fails). -/
structure PlayerStream (σ : Type) where
  remaining : σ → Nat
  nextPlayer : σ → Except RtErr (Player × σ)

/-- VectorPlayerStream (PlayerStream.cpp): a cursor over a vector of players. -/
structure VectorPlayerStream where
  players : List Player
  current : Nat
deriving Repr, DecidableEq

/-- VectorPlayerStream::remaining(): `players_.size() - current_`. -/
def VectorPlayerStream.remaining (s : VectorPlayerStream) : Nat :=
  s.players.length - s.current

/-- VectorPlayerStream::nextPlayer(): if `remaining() > 0` advance the cursor
and return `players_[current_-1]`; otherwise throw (ExhaustedSource). -/
def VectorPlayerStream.nextPlayer (s : VectorPlayerStream) :
    Except RtErr (Player × VectorPlayerStream) :=
  if h : 0 < s.players.length - s.current then
    .ok (s.players.get ⟨s.current, by omega⟩, ⟨s.players, s.current + 1⟩)
  else .error .exhausted

/-- The vector-backed stream packaged as a PlayerStream. -/
def vectorStream : PlayerStream VectorPlayerStream :=
  ⟨VectorPlayerStream.remaining, VectorPlayerStream.nextPlayer⟩

/-- Modelled from the spec: `std::unordered_map::insert` inserts the pair
only when the key is not yet present (it never overwrites). -/
def insertCutoff (m : List (Nat × Nat)) (key v : Nat) : List (Nat × Nat) :=
  if (m.lookup key).isSome then m else m ++ [(key, v)]

/-- Modelled from the spec: `std::sort` over players with the rank-key order
(ascending by `level_`); any such sort yields the same key sequence, and the
model realises it by insertion sort. -/
def sortModel (l : List Player) : List Player :=
  l.insertionSort (fun a b => a.level ≤ b.level)

/-- The while-loop of Online::rankIncoming.  State: stream state `s`, count
`read`, the bounded top collection `minTop`, the accumulated cutoffs.  Per
record: push while `read < k`; push and `std::make_heap(..., greater)` when
`read == k`; otherwise compare with `min_top.front()` and `replaceMin` when
the new record's key is at least the current minimum.  After every multiple
of `k` records (with `minTop` non-empty) record `min_top[0].level_`.  When
the stream is exhausted, unconditionally read `min_top[0]` (an out-of-bounds
fault when nothing was streamed) and record the final cutoff at key `read`. -/
def rankLoop {σ : Type} (st : PlayerStream σ) (k : Nat) :
    Nat → σ → Nat → Array Player → List (Nat × Nat) →
    Except RtErr (Array Player × List (Nat × Nat) × Nat)
  | 0, _, _, _, _ => .error .fuel
  | fuel+1, s, read, minTop, cuts =>
    if 0 < st.remaining s then do
      let (p, s') ← st.nextPlayer s
      let read' := read + 1
      let minTop' ←
        if read' < k then pure (minTop.push p)
        else if read' = k then makeHeapModel (minTop.push p) (minTop.push p).size false
        else do
          let front ← readH minTop minTop.size 0
          if front.level ≤ p.level then replaceMin minTop minTop.size p
          else pure minTop
      let cuts' ←
        if read' % k = 0 ∧ minTop'.size ≠ 0 then do
          let r ← readH minTop' minTop'.size 0
          pure (insertCutoff cuts read' r.level)
        else pure cuts
      rankLoop st k fuel s' read' minTop' cuts'
    else do
      let r ← readH minTop minTop.size 0
      pure (minTop, insertCutoff cuts read r.level, read)

/-- Online::rankIncoming(stream, reporting_interval): exhaust the stream via
the loop, then fully sort the retained players ascending and return them with
the accumulated cutoffs. -/
def rankIncoming {σ : Type} (st : PlayerStream σ) (s : σ) (k : Nat) (fuel : Nat) :
    Except RtErr RankingResult := do
  let (minTop, cuts, _) ← rankLoop st k fuel s 0 #[] []
  pure ⟨sortModel minTop.toList, cuts⟩

/-- rankIncoming on a vector-backed stream over `ps`, with fuel sufficient
for the whole stream. -/
def rankIncomingV (ps : List Player) (k : Nat) : Except RtErr RankingResult :=
  rankIncoming vectorStream ⟨ps, 0⟩ k (ps.length + 1)

/-- Specification-side definition (from the spec's words, for comparison):
the multiset of the `k` largest keys of `keys`, listed in ascending order:
drop all but the last `k` entries of the ascending sort. -/
def topKAsc (k : Nat) (keys : List Nat) : List Nat :=
  (keys.insertionSort (· ≤ ·)).drop (keys.length - k)

/-- Heap-order relation between a parent and a child value: the parent
dominates in a max heap, is dominated in a min heap. -/
def heapLe (mx : Bool) (parent child : Player) : Prop :=
  match mx with
  | true => child.level ≤ parent.level
  | false => parent.level ≤ child.level

instance (mx : Bool) (p c : Player) : Decidable (heapLe mx p c) := by
  unfold heapLe; cases mx <;> exact inferInstance

/-- The heap-order invariant on the range `[0, sz)`. -/
def isHeap (mx : Bool) (arr : Array Player) (sz : Nat) : Prop :=
  ∀ i, i < sz →
    (2*i+1 < sz → heapLe mx (aget arr i) (aget arr (2*i+1))) ∧
    (2*i+2 < sz → heapLe mx (aget arr i) (aget arr (2*i+2)))

instance (mx : Bool) (arr : Array Player) (sz : Nat) : Decidable (isHeap mx arr sz) := by
  unfold isHeap
  exact Nat.decidableBallLT sz _

/-- Membership of `i` in the binary-tree subtree rooted at `root` (by the
parent chain `i -> (i-1)/2`). -/
def desc (root : Nat) : Nat → Bool
  | i =>
    if i = root then true
    else if h : i = 0 then false
    else desc root ((i-1)/2)
termination_by i => i
decreasing_by
  omega

/-- The Pull Sequence contract of the spec: `next()` fails exactly when
`remaining() == 0`, and each successful `next()` decreases `remaining` by
one. -/
def StreamContract {σ : Type} (st : PlayerStream σ) : Prop :=
  (∀ s, (∃ e, st.nextPlayer s = .error e) ↔ st.remaining s = 0) ∧
  (∀ s p s', st.nextPlayer s = .ok (p, s') → st.remaining s' + 1 = st.remaining s)

/-- Prefix of the underlying list covered by the heap range `[0, sz)`. -/
def segL (arr : Array Player) (sz : Nat) : List Player :=
  arr.toList.take sz

instance : IsTotal Player (fun a b => a.level ≤ b.level) :=
  ⟨fun a b => Nat.le_total a.level b.level⟩

instance : IsTrans Player (fun a b => a.level ≤ b.level) :=
  ⟨fun a b c => Nat.le_trans⟩

def notEx {α : Type} (e : Except RtErr α) : Prop := e ≠ .error .exhausted

/-- Invariant of the Online::rankIncoming while-loop over a vector-backed
stream, at loop entry with `c` records consumed: the retained collection has
size `min k c`; before the heap phase it is exactly the streamed prefix;
from the heap phase on it is a min-heap holding, together with the discarded
records `rest`, a permutation of the streamed prefix, every discarded record
keyed at most the current root; and the cutoff list has strictly increasing
milestone keys (multiples of `k`, at most `c`) with non-decreasing values,
all bounded by the current root's key, the entry at key `c` (if any) holding
exactly the current root's key. -/
def RankInv (k : Nat) (ps : List Player) (c : Nat) (minTop : Array Player)
    (cuts : List (Nat × Nat)) : Prop :=
  minTop.size = min k c ∧
  (c < k → minTop.toList = ps.take c) ∧
  (k ≤ c → isHeap false minTop k ∧
    ∃ rest : List Player, (ps.take c).Perm (minTop.toList ++ rest) ∧
      ∀ x ∈ rest, x.level ≤ (aget minTop 0).level) ∧
  (∀ mv ∈ cuts, mv.1 % k = 0 ∧ 1 ≤ mv.1 ∧ mv.1 ≤ c ∧ mv.2 ≤ (aget minTop 0).level) ∧
  List.Pairwise (fun a b : Nat × Nat => a.1 < b.1 ∧ a.2 ≤ b.2) cuts ∧
  (∀ v, List.lookup c cuts = some v → v = (aget minTop 0).level)

/-- What the loop hands back after a non-empty vector stream is exhausted:
the retained collection holds the `min k L` best records (everything, before
the heap phase; a heap dominating the discarded rest, after) and the final
cutoff entry at key `L` holds the root's key, the cutoff values being
non-decreasing along strictly increasing milestone keys. -/
def RankPost (k : Nat) (ps : List Player) (minT : Array Player)
    (cutsF : List (Nat × Nat)) : Prop :=
  minT.size = min k ps.length ∧
  (ps.length < k → minT.toList = ps) ∧
  (k ≤ ps.length → isHeap false minT k ∧
    ∃ rest : List Player, ps.Perm (minT.toList ++ rest) ∧
      ∀ x ∈ rest, x.level ≤ (aget minT 0).level) ∧
  List.Pairwise (fun a b : Nat × Nat => a.1 < b.1 ∧ a.2 ≤ b.2) cutsF ∧
  List.lookup ps.length cutsF = some (aget minT 0).level ∧
  (∀ mv ∈ cutsF, 1 ≤ mv.1 ∧ mv.1 ≤ ps.length)

section ClaimInputs

/-- The spec's worked example: five records keyed 10, 50, 5, 90, 30. -/
def exPlayers : List Player :=
  [⟨"a", 10⟩, ⟨"b", 50⟩, ⟨"c", 5⟩, ⟨"d", 90⟩, ⟨"e", 30⟩]

/-- The result of the worked example at interval 2. -/
def exResult : RankingResult :=
  ⟨[⟨"b", 50⟩, ⟨"d", 90⟩], [(2, 10), (4, 50), (5, 50)]⟩

/-- A two-record stream whose count never reaches the interval. -/
def cexPlayers : List Player := [⟨"a", 5⟩, ⟨"b", 3⟩]

/-- A range heap-ordered everywhere except at index 1. -/
def cexHeap : Array Player :=
  #[⟨"a", 5⟩, ⟨"b", 100⟩, ⟨"c", 6⟩, ⟨"d", 2⟩, ⟨"e", 3⟩]

/-- What percolateDown makes of `cexHeap` at root 1 (min mode). -/
def cexHeapOut : Array Player :=
  #[⟨"a", 5⟩, ⟨"d", 2⟩, ⟨"c", 6⟩, ⟨"b", 100⟩, ⟨"e", 3⟩]

end ClaimInputs

section Basics

theorem heapLe_refl (mx : Bool) (a : Player) : heapLe mx a a := by
  cases mx <;> simp [heapLe]

theorem heapLe_total {mx : Bool} {a b : Player} (h : ¬ heapLe mx a b) : heapLe mx b a := by
  cases mx <;> simp_all [heapLe] <;> omega

theorem heapLe_trans {mx : Bool} {a b c : Player}
    (h1 : heapLe mx a b) (h2 : heapLe mx b c) : heapLe mx a c := by
  cases mx <;> simp_all [heapLe] <;> omega

theorem aget_eq_getElem {arr : Array Player} {i : Nat} (h : i < arr.size) :
    aget arr i = arr[i] := by
  simp [aget, h]

theorem aget_swap {arr : Array Player} {i j : Nat} (hi : i < arr.size) (hj : j < arr.size)
    (t : Nat) :
    aget (arr.swap ⟨i, hi⟩ ⟨j, hj⟩) t =
      if t = i then aget arr j else if t = j then aget arr i else aget arr t := by
  by_cases ht : t < arr.size
  · rw [aget_eq_getElem (by simpa using ht)]
    rw [Array.getElem_swap]
    simp only [aget_eq_getElem hi, aget_eq_getElem hj, aget_eq_getElem ht]
    by_cases h1 : t = i <;> by_cases h2 : t = j <;> simp [h1, h2]
  · have h1 : t ≠ i := by omega
    have h2 : t ≠ j := by omega
    simp only [h1, h2, if_false]
    unfold aget
    rw [dif_neg (by simpa using ht), dif_neg ht]

theorem aget_set {arr : Array Player} {i : Nat} (hi : i < arr.size) (v : Player) (t : Nat) :
    aget (arr.set ⟨i, hi⟩ v) t = if t = i then v else aget arr t := by
  by_cases ht : t < arr.size
  · rw [aget_eq_getElem (by simpa using ht), Array.getElem_set]
    by_cases h1 : t = i
    · simp [h1]
    · have h2 : ¬ (i = t) := fun h => h1 h.symm
      simp [h1, h2, aget_eq_getElem ht]
  · have h1 : t ≠ i := by omega
    simp only [h1, if_false]
    unfold aget
    rw [dif_neg (by simpa using ht), dif_neg ht]

theorem aget_push {arr : Array Player} (v : Player) (t : Nat) :
    aget (arr.push v) t = if t < arr.size then aget arr t else if t = arr.size then v else default := by
  by_cases ht : t < arr.size
  · rw [aget_eq_getElem (by simp; omega)]
    rw [Array.getElem_push_lt arr v t ht]
    simp [ht, aget_eq_getElem ht]
  · by_cases he : t = arr.size
    · subst he
      rw [aget_eq_getElem (by simp)]
      simp [Array.getElem_push_eq, ht]
    · have h2 : ¬ t < (arr.push v).size := by simp; omega
      simp only [ht, he, if_false]
      unfold aget
      rw [dif_neg h2]

theorem readH_ok {arr : Array Player} {sz i : Nat} (h1 : i < sz) (h2 : sz ≤ arr.size) :
    readH arr sz i = .ok (aget arr i) := by
  have h3 : i < arr.size := by omega
  simp [readH, h1, h3, aget_eq_getElem h3]

theorem readH_oob {arr : Array Player} {sz i : Nat} (h1 : ¬ (i < sz ∧ i < arr.size)) :
    readH arr sz i = .error .oob := by
  simp [readH, h1]

theorem writeH_ok {arr : Array Player} {sz i : Nat} (v : Player)
    (h1 : i < sz) (h2 : sz ≤ arr.size) :
    writeH arr sz i v = .ok (arr.set ⟨i, by omega⟩ v) := by
  have h3 : i < arr.size := by omega
  simp [writeH, h1, h3]

theorem swapH_ok {arr : Array Player} {sz i j : Nat}
    (h1 : i < sz) (h2 : j < sz) (h3 : sz ≤ arr.size) :
    swapH arr sz i j = .ok (arr.swap ⟨i, by omega⟩ ⟨j, by omega⟩) := by
  have h4 : i < arr.size := by omega
  have h5 : j < arr.size := by omega
  simp [swapH, h1, h2, h4, h5]

theorem readA_ok {arr : Array Player} {i : Int} (h1 : 0 ≤ i) (h2 : i.toNat < arr.size) :
    readA arr i = .ok (aget arr i.toNat) := by
  simp [readA, h1, h2, aget_eq_getElem h2]

theorem swapA_ok {arr : Array Player} {i j : Int}
    (h1 : 0 ≤ i) (h2 : 0 ≤ j) (h3 : i.toNat < arr.size) (h4 : j.toNat < arr.size) :
    swapA arr i j = .ok (arr.swap ⟨i.toNat, h3⟩ ⟨j.toNat, h4⟩) := by
  simp [swapA, h1, h2, h3, h4]

theorem perm_cons_set (l : List Player) (m : Nat) (a : Player) (h : m < l.length) :
    (l[m] :: l.set m a).Perm (a :: l) := by
  rw [List.set_eq_take_append_cons_drop, if_pos h]
  have p1 : (l[m] :: (List.take m l ++ a :: List.drop (m + 1) l)).Perm
      (l[m] :: (a :: (List.take m l ++ List.drop (m + 1) l))) :=
    List.Perm.cons _ List.perm_middle
  have p2 : (l[m] :: (a :: (List.take m l ++ List.drop (m + 1) l))).Perm
      (a :: (l[m] :: (List.take m l ++ List.drop (m + 1) l))) := List.Perm.swap _ _ _
  have p3 : (a :: (l[m] :: (List.take m l ++ List.drop (m + 1) l))).Perm
      (a :: (List.take m l ++ l[m] :: List.drop (m + 1) l)) :=
    List.Perm.cons _ List.perm_middle.symm
  have p4 : List.take m l ++ l[m] :: List.drop (m + 1) l = l := by
    rw [List.getElem_cons_drop, List.take_append_drop]
  rw [p4] at p3
  exact (p1.trans p2).trans p3

theorem set_getElem_self (l : List Player) (m : Nat) (h : m < l.length) :
    l.set m l[m] = l := by
  apply List.ext_getElem
  · simp
  · intro t h1 h2
    rw [List.getElem_set]
    split
    · simp_all
    · rfl

theorem set_set_perm (l : List Player) (i j : Nat) (hi : i < l.length) (hj : j < l.length) :
    ((l.set i l[j]).set j l[i]).Perm l := by
  by_cases hij : i = j
  · subst hij
    rw [List.set_set, set_getElem_self]
  · have hj2 : j < (l.set i l[j]).length := by simpa using hj
    have h1 : (l.set i l[j])[j] = l[j] := by
      rw [List.getElem_set, if_neg hij]
    have h2 : (l[j] :: (l.set i l[j]).set j l[i]).Perm (l[i] :: l.set i l[j]) := by
      have := perm_cons_set (l.set i l[j]) j l[i] (by simpa using hj)
      rwa [h1] at this
    have h3 : (l[i] :: l.set i l[j]).Perm (l[j] :: l) := perm_cons_set l i l[j] hi
    exact (h2.trans h3).cons_inv

theorem ok_bind {α β : Type} (a : α) (f : α → Except RtErr β) :
    (Except.ok a : Except RtErr α) >>= f = f a := rfl

theorem error_bind {α β : Type} (e : RtErr) (f : α → Except RtErr β) :
    (Except.error e : Except RtErr α) >>= f = Except.error e := rfl

end Basics

section Desc

theorem desc_refl (root : Nat) : desc root root = true := by
  unfold desc
  simp

theorem desc_le (root : Nat) : ∀ i, desc root i = true → root ≤ i := by
  intro i
  induction i using Nat.strong_induction_on with
  | _ i ih =>
    intro h
    unfold desc at h
    by_cases h1 : i = root
    · omega
    · rw [if_neg h1] at h
      by_cases h2 : i = 0
      · rw [dif_pos h2] at h
        exact absurd h (by simp)
      · rw [dif_neg h2] at h
        have := ih ((i-1)/2) (by omega) h
        omega

theorem desc_child {root i c : Nat} (h : desc root i = true)
    (hc : c = 2*i+1 ∨ c = 2*i+2) : desc root c = true := by
  have hc0 : c ≠ 0 := by omega
  have hpar : (c-1)/2 = i := by omega
  rw [desc]
  by_cases h1 : c = root
  · simp [h1]
  · rw [if_neg h1, dif_neg hc0, hpar]
    exact h

theorem desc_trans {a b : Nat} : ∀ c, desc a b = true → desc b c = true → desc a c = true := by
  intro c
  induction c using Nat.strong_induction_on with
  | _ c ih =>
    intro hab hbc
    rw [desc] at hbc
    by_cases h1 : c = b
    · subst h1; exact hab
    · rw [if_neg h1] at hbc
      by_cases h2 : c = 0
      · rw [dif_pos h2] at hbc
        exact absurd hbc (by simp)
      · rw [dif_neg h2] at hbc
        have hp := ih ((c-1)/2) (by omega) hab hbc
        rw [desc]
        by_cases h3 : c = a
        · simp [h3]
        · rw [if_neg h3, dif_neg h2]
          exact hp

theorem not_desc_of_lt {root i : Nat} (h : i < root) : desc root i = false := by
  by_contra hc
  have := desc_le root i (by simpa using hc)
  omega

theorem desc_zero : ∀ i, desc 0 i = true := by
  intro i
  induction i using Nat.strong_induction_on with
  | _ i ih =>
    rw [desc]
    by_cases h1 : i = 0
    · simp [h1]
    · rw [if_neg h1, dif_neg h1]
      exact ih _ (by omega)

end Desc

section Seg

theorem length_segL (arr : Array Player) (sz : Nat) :
    (segL arr sz).length = min sz arr.size := by
  simp [segL]

theorem segL_full (arr : Array Player) : segL arr arr.size = arr.toList := by
  unfold segL
  rw [← Array.length_toList, List.take_length]

theorem getElem_segL {arr : Array Player} {sz t : Nat} (h1 : t < sz) (h2 : t < arr.size)
    (ht : t < (segL arr sz).length) :
    (segL arr sz)[t] = aget arr t := by
  unfold segL at ht ⊢
  rw [List.getElem_take, Array.getElem_toList, aget_eq_getElem h2]

theorem take_set_comm (l : List Player) (m sz : Nat) (v : Player) (hm : m < sz) :
    (l.set m v).take sz = (l.take sz).set m v := by
  apply List.ext_getElem
  · simp
  · intro t h1 h2
    rw [List.getElem_take, List.getElem_set, List.getElem_set]
    split
    · rfl
    · rw [List.getElem_take]

theorem segL_set {arr : Array Player} {i : Nat} (hi : i < arr.size) (v : Player) {sz : Nat}
    (h : i < sz) :
    segL (arr.set ⟨i, hi⟩ v) sz = (segL arr sz).set i v := by
  unfold segL
  rw [Array.toList_set, take_set_comm _ _ _ _ h]

theorem segL_swap {arr : Array Player} {i j sz : Nat} (hi : i < sz) (hj : j < sz)
    (hi' : i < arr.size) (hj' : j < arr.size) :
    segL (arr.swap ⟨i, hi'⟩ ⟨j, hj'⟩) sz =
      ((segL arr sz).set i (aget arr j)).set j (aget arr i) := by
  rw [Array.swap_def]
  unfold segL
  rw [Array.toList_set, Array.toList_set]
  rw [take_set_comm _ _ _ _ hj, take_set_comm _ _ _ _ hi]
  rw [Array.get_eq_getElem, Array.get_eq_getElem]
  rw [aget_eq_getElem hi', aget_eq_getElem hj']

theorem segL_swap_perm {arr : Array Player} {i j sz : Nat} (hi : i < sz) (hj : j < sz)
    (hsz : sz ≤ arr.size) (hi' : i < arr.size) (hj' : j < arr.size) :
    (segL (arr.swap ⟨i, hi'⟩ ⟨j, hj'⟩) sz).Perm (segL arr sz) := by
  rw [segL_swap hi hj]
  have li : i < (segL arr sz).length := by rw [length_segL]; omega
  have lj : j < (segL arr sz).length := by rw [length_segL]; omega
  have ei : (segL arr sz)[i] = aget arr i := getElem_segL hi hi' li
  have ej : (segL arr sz)[j] = aget arr j := getElem_segL hj hj' lj
  rw [← ei, ← ej]
  exact set_set_perm _ i j li lj

end Seg

section PercolateDown

/-- pdLoop makes one of two moves when the left child exists: it selects the
extremal existing child `ch` and either stops (the value in hand already
dominates `ch`) or swaps and descends to `ch`. -/
theorem pdLoop_step (mx : Bool) (temp : Player) (sz : Nat) (fuel : Nat) (arr : Array Player)
    (i : Nat) (hsz : sz ≤ arr.size) (hch : 2*i+1 < sz) :
    ∃ ch, (ch = 2*i+1 ∨ ch = 2*i+2) ∧ ch < sz ∧
      (∀ c, (c = 2*i+1 ∨ c = 2*i+2) → c < sz → heapLe mx (aget arr ch) (aget arr c)) ∧
      pdLoop sz mx temp (fuel+1) arr i =
        (if heapLe mx temp (aget arr ch) then pure arr
         else do
           let arr' ← swapH arr sz i ch
           pdLoop sz mx temp fuel arr' ch) := by
  rw [pdLoop, if_pos hch, readH_ok hch hsz, ok_bind]
  by_cases hr : 2*i+2 ≠ sz
  · have hrsz : 2*i+2 < sz := by omega
    rw [if_pos hr, readH_ok hrsz hsz, ok_bind]
    cases mx with
    | true =>
      by_cases hlt : (aget arr (2*i+1)).level < (aget arr (2*i+2)).level
      · rw [if_pos ⟨rfl, hlt⟩]; simp only [pure_bind]; rw [readH_ok hrsz hsz, ok_bind]
        refine ⟨2*i+2, Or.inr rfl, hrsz, ?_, ?_⟩
        · intro c hc hcsz
          rcases hc with h | h <;> subst h
          · simp only [heapLe]; omega
          · exact heapLe_refl _ _
        · by_cases hcmp : temp.level < (aget arr (2*i+2)).level
          · rw [if_pos ⟨by trivial, hcmp⟩, if_neg (by simp only [heapLe]; omega)]
          · rw [if_neg (fun h => hcmp h.2), if_neg (by simp), if_pos (by simp only [heapLe]; omega)]
      · rw [if_neg (fun h => hlt h.2), if_neg (by simp)]; simp only [pure_bind]; rw [readH_ok hch hsz, ok_bind]
        refine ⟨2*i+1, Or.inl rfl, hch, ?_, ?_⟩
        · intro c hc hcsz
          rcases hc with h | h <;> subst h
          · exact heapLe_refl _ _
          · simp only [heapLe]; omega
        · by_cases hcmp : temp.level < (aget arr (2*i+1)).level
          · rw [if_pos ⟨by trivial, hcmp⟩, if_neg (by simp only [heapLe]; omega)]
          · rw [if_neg (fun h => hcmp h.2), if_neg (by simp), if_pos (by simp only [heapLe]; omega)]
    | false =>
      by_cases hlt : (aget arr (2*i+2)).level < (aget arr (2*i+1)).level
      · rw [if_neg (by simp), if_pos ⟨rfl, hlt⟩]; simp only [pure_bind]; rw [readH_ok hrsz hsz, ok_bind]
        refine ⟨2*i+2, Or.inr rfl, hrsz, ?_, ?_⟩
        · intro c hc hcsz
          rcases hc with h | h <;> subst h
          · simp only [heapLe]; omega
          · exact heapLe_refl _ _
        · by_cases hcmp : (aget arr (2*i+2)).level < temp.level
          · rw [if_neg (by simp), if_pos ⟨by trivial, hcmp⟩, if_neg (by simp only [heapLe]; omega)]
          · rw [if_neg (by simp), if_neg (fun h => hcmp h.2), if_pos (by simp only [heapLe]; omega)]
      · rw [if_neg (by simp), if_neg (fun h => hlt h.2)]; simp only [pure_bind]; rw [readH_ok hch hsz, ok_bind]
        refine ⟨2*i+1, Or.inl rfl, hch, ?_, ?_⟩
        · intro c hc hcsz
          rcases hc with h | h <;> subst h
          · exact heapLe_refl _ _
          · simp only [heapLe]; omega
        · by_cases hcmp : (aget arr (2*i+1)).level < temp.level
          · rw [if_neg (by simp), if_pos ⟨by trivial, hcmp⟩, if_neg (by simp only [heapLe]; omega)]
          · rw [if_neg (by simp), if_neg (fun h => hcmp h.2), if_pos (by simp only [heapLe]; omega)]
  · rw [if_neg hr]; simp only [pure_bind]; rw [readH_ok hch hsz, ok_bind]
    refine ⟨2*i+1, Or.inl rfl, hch, ?_, ?_⟩
    · intro c hc hcsz
      rcases hc with h | h
      · subst h; exact heapLe_refl _ _
      · omega
    · cases mx with
      | true =>
        by_cases hcmp : temp.level < (aget arr (2*i+1)).level
        · rw [if_pos ⟨by trivial, hcmp⟩, if_neg (by simp only [heapLe]; omega)]
        · rw [if_neg (fun h => hcmp h.2), if_neg (by simp), if_pos (by simp only [heapLe]; omega)]
      | false =>
        by_cases hcmp : (aget arr (2*i+1)).level < temp.level
        · rw [if_neg (by simp), if_pos ⟨by trivial, hcmp⟩, if_neg (by simp only [heapLe]; omega)]
        · rw [if_neg (by simp), if_neg (fun h => hcmp h.2), if_pos (by simp only [heapLe]; omega)]

/-- Main invariant lemma for the sift-down loop.  If the value `temp` sits at
position `i` inside the subtree of `root`, every parent-child pair inside the
range whose parent is a strict descendant of `root` (other than `i`) is
heap-ordered, and the parent of `i` (when `i` is not the root) already
dominates the children of `i`, then the loop succeeds, permutes only the
subtree of `i` inside the range, establishes heap order on every pair whose
parent descends from `root`, and leaves at `i` either its old value or one of
its old children's values. -/
theorem pdLoop_spec (mx : Bool) (temp : Player) (sz root : Nat) :
    ∀ (fuel : Nat) (arr : Array Player) (i : Nat),
      sz ≤ arr.size → i < sz → sz ≤ fuel + i →
      desc root i = true →
      aget arr i = temp →
      (∀ p c, (c = 2*p+1 ∨ c = 2*p+2) → c < sz → desc root p = true → p ≠ i →
        heapLe mx (aget arr p) (aget arr c)) →
      (∀ c, (c = 2*i+1 ∨ c = 2*i+2) → c < sz → i ≠ root →
        heapLe mx (aget arr ((i-1)/2)) (aget arr c)) →
      ∃ r, pdLoop sz mx temp fuel arr i = .ok r ∧
        r.size = arr.size ∧
        (∀ t, desc i t = false ∨ sz ≤ t → aget r t = aget arr t) ∧
        (segL r sz).Perm (segL arr sz) ∧
        (∀ p c, (c = 2*p+1 ∨ c = 2*p+2) → c < sz → desc root p = true →
          heapLe mx (aget r p) (aget r c)) ∧
        (aget r i = aget arr i ∨
          ∃ c, (c = 2*i+1 ∨ c = 2*i+2) ∧ c < sz ∧ aget r i = aget arr c) := by
  intro fuel
  induction fuel with
  | zero =>
    intro arr i hsz hi hfuel
    omega
  | succ fuel ih =>
    intro arr i hsz hi hfuel hdesc htemp hA hI2
    by_cases hch : 2*i+1 < sz
    · obtain ⟨ch, hch12, hchsz, hsel, heq⟩ := pdLoop_step mx temp sz fuel arr i hsz hch
      have hich : i < ch := by omega
      by_cases hbr : heapLe mx temp (aget arr ch)
      · refine ⟨arr, ?_, rfl, fun t _ => rfl, List.Perm.refl _, ?_, Or.inl rfl⟩
        · rw [heq, if_pos hbr]; rfl
        · intro p c hc hcsz hdp
          by_cases hpi : p = i
          · subst hpi
            rw [htemp]
            exact heapLe_trans hbr (hsel c hc hcsz)
          · exact hA p c hc hcsz hdp hpi
      · have hia : i < arr.size := by omega
        have hca : ch < arr.size := by omega
        have hget := aget_swap hia hca
        have harr'ch : aget (arr.swap ⟨i, hia⟩ ⟨ch, hca⟩) ch = temp := by
          rw [hget ch, if_neg (by omega), if_pos rfl]
          exact htemp
        have hdch : desc root ch = true := desc_child hdesc hch12
        have hdich : desc i ch = true := desc_child (desc_refl i) hch12
        have hA' : ∀ p c, (c = 2*p+1 ∨ c = 2*p+2) → c < sz → desc root p = true → p ≠ ch →
            heapLe mx (aget (arr.swap ⟨i, hia⟩ ⟨ch, hca⟩) p)
              (aget (arr.swap ⟨i, hia⟩ ⟨ch, hca⟩) c) := by
          intro p c hc hcsz hdp hpch
          by_cases hpi : p = i
          · subst hpi
            rw [hget p, if_pos rfl]
            by_cases hcch : c = ch
            · subst hcch
              rw [harr'ch, ← htemp]
              have := heapLe_total hbr
              rw [htemp]
              exact this
            · have hci : c ≠ p := by omega
              rw [hget c, if_neg hci, if_neg hcch]
              exact hsel c hc hcsz
          · rw [hget p, if_neg hpi, if_neg hpch]
            by_cases hci : c = i
            · subst hci
              have hp_eq : p = (c-1)/2 := by omega
              by_cases hir : c = root
              · exfalso
                have := desc_le root p hdp
                omega
              · rw [hget c, if_pos rfl]
                have := hI2 ch hch12 hchsz hir
                rw [← hp_eq] at this
                exact this
            · by_cases hcch : c = ch
              · exfalso
                omega
              · rw [hget c, if_neg hci, if_neg hcch]
                exact hA p c hc hcsz hdp hpi
        have hI2' : ∀ c, (c = 2*ch+1 ∨ c = 2*ch+2) → c < sz → ch ≠ root →
            heapLe mx (aget (arr.swap ⟨i, hia⟩ ⟨ch, hca⟩) ((ch-1)/2))
              (aget (arr.swap ⟨i, hia⟩ ⟨ch, hca⟩) c) := by
          intro c hc hcsz _
          have hpar : (ch-1)/2 = i := by omega
          rw [hpar, hget i, if_pos rfl]
          have hci : c ≠ i := by omega
          have hcc : c ≠ ch := by omega
          rw [hget c, if_neg hci, if_neg hcc]
          exact hA ch c hc hcsz hdch (by omega)
        obtain ⟨r, hr_eq, hr_size, hr_un, hr_perm, hr_heap, hr_val⟩ :=
          ih (arr.swap ⟨i, hia⟩ ⟨ch, hca⟩) ch (by simpa using hsz) hchsz (by omega)
            hdch harr'ch hA' hI2'
        refine ⟨r, ?_, by rw [hr_size]; simp, ?_, ?_, hr_heap, ?_⟩
        · rw [heq, if_neg hbr, swapH_ok hi hchsz hsz, ok_bind]
          exact hr_eq
        · intro t ht
          have htch : desc ch t = false ∨ sz ≤ t := by
            rcases ht with ht | ht
            · left
              by_contra hcon
              have h1 : desc ch t = true := by simpa using hcon
              have := desc_trans t hdich h1
              rw [ht] at this
              exact absurd this (by simp)
            · right; exact ht
          have h1 := hr_un t htch
          rw [h1, hget t]
          have hti : t ≠ i := by
            rcases ht with ht | ht
            · intro hcon; subst hcon; rw [desc_refl] at ht; exact absurd ht (by simp)
            · omega
          have htc : t ≠ ch := by
            rcases ht with ht | ht
            · intro hcon; subst hcon; rw [hdich] at ht; exact absurd ht (by simp)
            · omega
          rw [if_neg hti, if_neg htc]
        · exact hr_perm.trans (segL_swap_perm hi hchsz hsz hia hca)
        · right
          refine ⟨ch, hch12, hchsz, ?_⟩
          have h1 := hr_un i (Or.inl (not_desc_of_lt hich))
          rw [h1, hget i, if_pos rfl]
    · refine ⟨arr, ?_, rfl, fun t _ => rfl, List.Perm.refl _, ?_, Or.inl rfl⟩
      · rw [pdLoop, if_neg hch]; rfl
      · intro p c hc hcsz hdp
        by_cases hpi : p = i
        · subst hpi; omega
        · exact hA p c hc hcsz hdp hpi

/-- Online::percolateDown at a root inside the range: given heap order at
every parent (descending from `root`) other than `root` itself, it succeeds
(never reading at or past the end), permutes only the subtree of `root`
inside the range, and establishes heap order at every parent descending from
`root`; the value left at `root` is its old value or one of its old
children's values. -/
theorem percolateDown_spec (mx : Bool) (arr : Array Player) (sz root : Nat)
    (hroot : root < sz) (hsz : sz ≤ arr.size)
    (hA : ∀ p c, (c = 2*p+1 ∨ c = 2*p+2) → c < sz → desc root p = true → p ≠ root →
      heapLe mx (aget arr p) (aget arr c)) :
    ∃ r, percolateDown arr sz root mx = .ok r ∧
      r.size = arr.size ∧
      (∀ t, desc root t = false ∨ sz ≤ t → aget r t = aget arr t) ∧
      (segL r sz).Perm (segL arr sz) ∧
      (∀ p c, (c = 2*p+1 ∨ c = 2*p+2) → c < sz → desc root p = true →
        heapLe mx (aget r p) (aget r c)) ∧
      (aget r root = aget arr root ∨
        ∃ c, (c = 2*root+1 ∨ c = 2*root+2) ∧ c < sz ∧ aget r root = aget arr c) := by
  obtain ⟨r, h1, h2, h3, h4, h5, h6⟩ := pdLoop_spec mx (aget arr root) sz root (sz+1) arr root
    hsz hroot (by omega) (desc_refl root) rfl hA (fun c hc hcsz hir => absurd rfl hir)
  refine ⟨r, ?_, h2, h3, h4, h5, h6⟩
  unfold percolateDown
  rw [readH_ok hroot hsz, ok_bind]
  exact h1

end PercolateDown

section HeapOps

theorem isHeap_of_heapAll {mx : Bool} {arr : Array Player} {sz : Nat}
    (h : ∀ p c, (c = 2*p+1 ∨ c = 2*p+2) → c < sz → desc 0 p = true →
      heapLe mx (aget arr p) (aget arr c)) :
    isHeap mx arr sz := by
  intro i hi
  exact ⟨fun h1 => h i _ (Or.inl rfl) h1 (desc_zero i),
         fun h2 => h i _ (Or.inr rfl) h2 (desc_zero i)⟩

theorem heapAll_of_isHeap {mx : Bool} {arr : Array Player} {sz : Nat} (h : isHeap mx arr sz) :
    ∀ p c, (c = 2*p+1 ∨ c = 2*p+2) → c < sz → heapLe mx (aget arr p) (aget arr c) := by
  intro p c hc hcsz
  rcases hc with h1 | h1 <;> subst h1
  · exact (h p (by omega)).1 hcsz
  · exact (h p (by omega)).2 hcsz

theorem isHeap_root_le {mx : Bool} {arr : Array Player} {sz : Nat} (h : isHeap mx arr sz) :
    ∀ i, i < sz → heapLe mx (aget arr 0) (aget arr i) := by
  intro i
  induction i using Nat.strong_induction_on with
  | _ i ih =>
    intro hi
    by_cases h0 : i = 0
    · subst h0; exact heapLe_refl _ _
    · have hsplit : i = 2*((i-1)/2)+1 ∨ i = 2*((i-1)/2)+2 := by omega
      have hpar : heapLe mx (aget arr ((i-1)/2)) (aget arr i) := by
        rcases hsplit with h1 | h1
        · have h2 := (h ((i-1)/2) (by omega)).1 (by omega)
          rwa [← h1] at h2
        · have h2 := (h ((i-1)/2) (by omega)).2 (by omega)
          rwa [← h1] at h2
      exact heapLe_trans (ih ((i-1)/2) (by omega) (by omega)) hpar

theorem toList_perm_of_segL {a b : Array Player} {s : Nat} (hsize : b.size = a.size)
    (hs : s ≤ a.size)
    (hseg : (segL b s).Perm (segL a s)) (hun : ∀ t, s ≤ t → aget b t = aget a t) :
    b.toList.Perm a.toList := by
  have hd : b.toList.drop s = a.toList.drop s := by
    apply List.ext_getElem
    · simp [hsize]
    · intro u h1 h2
      rw [List.getElem_drop, List.getElem_drop]
      rw [Array.getElem_toList, Array.getElem_toList]
      have hu1 : s + u < b.size := by simp at h1; omega
      have hu2 : s + u < a.size := by simp at h2; omega
      rw [← aget_eq_getElem hu1, ← aget_eq_getElem hu2]
      exact hun (s+u) (by omega)
  have h1 : b.toList = segL b s ++ b.toList.drop s := (List.take_append_drop s b.toList).symm
  have h2 : a.toList = segL a s ++ a.toList.drop s := (List.take_append_drop s a.toList).symm
  rw [h1, h2, hd]
  exact hseg.append (List.Perm.refl _)

theorem segL_succ {arr : Array Player} {t : Nat} (h : t < arr.size) :
    segL arr (t+1) = segL arr t ++ [aget arr t] := by
  unfold segL
  rw [List.take_succ]
  congr 1
  have ht : t < arr.toList.length := by simpa using h
  rw [List.getElem?_eq_getElem ht]
  simp [Array.getElem_toList, aget_eq_getElem h]

theorem mem_segL {arr : Array Player} {sz : Nat} {x : Player} (hsz : sz ≤ arr.size) :
    x ∈ segL arr sz ↔ ∃ t, t < sz ∧ aget arr t = x := by
  unfold segL
  rw [List.mem_iff_getElem]
  constructor
  · rintro ⟨i, hi, he⟩
    have hi' : i < sz := by simp at hi; omega
    have hi2 : i < arr.size := by omega
    refine ⟨i, hi', ?_⟩
    rw [← he, List.getElem_take, Array.getElem_toList, aget_eq_getElem hi2]
  · rintro ⟨t, ht, he⟩
    have ht2 : t < arr.size := by omega
    refine ⟨t, by simp; omega, ?_⟩
    rw [List.getElem_take, Array.getElem_toList, ← aget_eq_getElem ht2]
    exact he

theorem mkHeapAux_spec (sz : Nat) (mx : Bool) :
    ∀ j arr, sz ≤ arr.size → j < sz →
      (∀ p c, (c = 2*p+1 ∨ c = 2*p+2) → c < sz → j < p →
        heapLe mx (aget arr p) (aget arr c)) →
      ∃ r, mkHeapAux sz mx j arr = .ok r ∧ r.size = arr.size ∧
        (∀ t, sz ≤ t → aget r t = aget arr t) ∧
        (segL r sz).Perm (segL arr sz) ∧
        (∀ p c, (c = 2*p+1 ∨ c = 2*p+2) → c < sz → heapLe mx (aget r p) (aget r c)) := by
  intro j
  induction j with
  | zero =>
    intro arr hsz hj hup
    have hpre : ∀ p c, (c = 2*p+1 ∨ c = 2*p+2) → c < sz → desc 0 p = true → p ≠ 0 →
        heapLe mx (aget arr p) (aget arr c) := by
      intro p c hc hcsz hdp hp0
      exact hup p c hc hcsz (by omega)
    obtain ⟨r, h1, h2, h3, h4, h5, h6⟩ := percolateDown_spec mx arr sz 0 hj hsz hpre
    refine ⟨r, h1, h2, fun t ht => h3 t (Or.inr ht), h4, ?_⟩
    intro p c hc hcsz
    exact h5 p c hc hcsz (desc_zero p)
  | succ j ih =>
    intro arr hsz hj hup
    have hpre : ∀ p c, (c = 2*p+1 ∨ c = 2*p+2) → c < sz → desc (j+1) p = true → p ≠ j+1 →
        heapLe mx (aget arr p) (aget arr c) := by
      intro p c hc hcsz hdp hp
      have := desc_le (j+1) p hdp
      exact hup p c hc hcsz (by omega)
    obtain ⟨r1, h1, h2, h3, h4, h5, h6⟩ := percolateDown_spec mx arr sz (j+1) hj hsz hpre
    · have hnext : ∀ p c, (c = 2*p+1 ∨ c = 2*p+2) → c < sz → j < p →
          heapLe mx (aget r1 p) (aget r1 c) := by
        intro p c hc hcsz hjp
        by_cases hdp : desc (j+1) p = true
        · exact h5 p c hc hcsz hdp
        · have hp : p ≠ j+1 := fun he => hdp (he ▸ desc_refl (j+1))
          have hcd : desc (j+1) c = false := by
            by_contra hcon
            have hcd' : desc (j+1) c = true := by simpa using hcon
            rw [desc] at hcd'
            have hc1 : c ≠ j+1 := by omega
            have hc0 : c ≠ 0 := by omega
            rw [if_neg hc1, dif_neg hc0] at hcd'
            have hpc : (c-1)/2 = p := by omega
            rw [hpc] at hcd'
            exact hdp hcd'
          rw [h3 p (Or.inl (by simpa using hdp)), h3 c (Or.inl hcd)]
          exact hup p c hc hcsz (by omega)
      obtain ⟨r, g1, g2, g3, g4, g5⟩ := ih r1 (by omega) (by omega) hnext
      refine ⟨r, ?_, by omega, ?_, g4.trans h4, g5⟩
      · rw [mkHeapAux, h1, ok_bind]
        exact g1
      · intro t ht
        rw [g3 t ht, h3 t (Or.inr ht)]

theorem makeHeapModel_spec (arr : Array Player) (sz : Nat) (mx : Bool) (hsz : sz ≤ arr.size) :
    ∃ r, makeHeapModel arr sz mx = .ok r ∧ r.size = arr.size ∧
      (∀ t, sz ≤ t → aget r t = aget arr t) ∧
      (segL r sz).Perm (segL arr sz) ∧ isHeap mx r sz := by
  unfold makeHeapModel
  by_cases h1 : sz ≤ 1
  · rw [if_pos h1]
    refine ⟨arr, rfl, rfl, fun _ _ => rfl, List.Perm.refl _, ?_⟩
    intro i hi
    constructor <;> intro hc <;> omega
  · rw [if_neg h1]
    have hpre : ∀ p c, (c = 2*p+1 ∨ c = 2*p+2) → c < sz → sz/2 < p →
        heapLe mx (aget arr p) (aget arr c) := by
      intro p c hc hcsz hp
      omega
    obtain ⟨r, g1, g2, g3, g4, g5⟩ := mkHeapAux_spec sz mx (sz/2) arr hsz (by omega) hpre
    refine ⟨r, g1, g2, g3, g4, ?_⟩
    intro i hi
    exact ⟨fun hc => g5 i _ (Or.inl rfl) hc, fun hc => g5 i _ (Or.inr rfl) hc⟩

theorem replaceMin_spec (arr : Array Player) (sz : Nat) (target : Player)
    (hpos : 0 < sz) (hsz : sz ≤ arr.size) (hheap : isHeap false arr sz) :
    ∃ r, replaceMin arr sz target = .ok r ∧ r.size = arr.size ∧
      (∀ t, sz ≤ t → aget r t = aget arr t) ∧
      (segL r sz).Perm ((segL arr sz).set 0 target) ∧ isHeap false r sz := by
  have h0 : 0 < arr.size := by omega
  have hset := aget_set h0 target
  have hpre : ∀ p c, (c = 2*p+1 ∨ c = 2*p+2) → c < sz → desc 0 p = true → p ≠ 0 →
      heapLe false (aget (arr.set ⟨0, h0⟩ target) p) (aget (arr.set ⟨0, h0⟩ target) c) := by
    intro p c hc hcsz hdp hp0
    rw [hset p, if_neg hp0, hset c, if_neg (by omega)]
    exact heapAll_of_isHeap hheap p c hc hcsz
  obtain ⟨r, g1, g2, g3, g4, g5, g6⟩ :=
    percolateDown_spec false (arr.set ⟨0, h0⟩ target) sz 0 hpos (by simpa using hsz) hpre
  refine ⟨r, ?_, by simpa using g2, ?_, ?_, ?_⟩
  · unfold replaceMin
    rw [writeH_ok target hpos hsz, ok_bind]
    exact g1
  · intro t ht
    rw [g3 t (Or.inr ht), hset t, if_neg (by omega)]
  · refine g4.trans ?_
    rw [segL_set h0 target hpos]
  · apply isHeap_of_heapAll
    intro p c hc hcsz hdp
    exact g5 p c hc hcsz hdp

end HeapOps

section SortHelper

/-- Uniqueness of the sorted top block: if `keys` splits (as a multiset) into
`other ++ top` with `top` ascending and dominating `other`, then `top` is the
tail of the full ascending sort, i.e. the `top.length` largest keys in
ascending order. -/
theorem top_eq_topKAsc (keys other top : List Nat)
    (hp : (other ++ top).Perm keys) (hs : top.Sorted (· ≤ ·))
    (hc : ∀ a ∈ other, ∀ b ∈ top, a ≤ b) :
    top = topKAsc top.length keys := by
  have hto : (List.insertionSort (· ≤ ·) other).Perm other := List.perm_insertionSort _ _
  have hsortedT : (List.insertionSort (· ≤ ·) other).Sorted (· ≤ ·) :=
    List.sorted_insertionSort _ _
  have happ : (List.insertionSort (· ≤ ·) other ++ top).Sorted (· ≤ ·) := by
    rw [List.Sorted, List.pairwise_append]
    exact ⟨hsortedT, hs, fun a ha b hb => hc a (hto.mem_iff.mp ha) b hb⟩
  have hperm : (List.insertionSort (· ≤ ·) other ++ top).Perm
      (List.insertionSort (· ≤ ·) keys) := by
    refine (hto.append (List.Perm.refl top)).trans ?_
    exact hp.trans (List.perm_insertionSort _ _).symm
  have heq : List.insertionSort (· ≤ ·) other ++ top = List.insertionSort (· ≤ ·) keys :=
    List.eq_of_perm_of_sorted hperm happ (List.sorted_insertionSort _ _)
  have hlen : (List.insertionSort (· ≤ ·) other).length = keys.length - top.length := by
    have h1 := hp.length_eq
    simp at h1
    simp
    omega
  unfold topKAsc
  rw [← heq, ← hlen, List.drop_left]

end SortHelper

section PopPhase

theorem popHeapModel_spec (arr : Array Player) (m : Nat) (h2m : 2 ≤ m) (hm : m ≤ arr.size)
    (hheap : isHeap true arr m) :
    ∃ r, popHeapModel arr m = .ok r ∧ r.size = arr.size ∧
      (∀ t, m ≤ t → aget r t = aget arr t) ∧
      (segL r m).Perm (segL arr m) ∧
      isHeap true r (m-1) ∧
      aget r (m-1) = aget arr 0 ∧
      (∀ x ∈ segL r (m-1), x.level ≤ (aget arr 0).level) := by
  have h0 : 0 < arr.size := by omega
  have hm1 : m - 1 < arr.size := by omega
  have hget := aget_swap h0 hm1
  have hm10 : m - 1 ≠ 0 := by omega
  have hpre : ∀ p c, (c = 2*p+1 ∨ c = 2*p+2) → c < m-1 → desc 0 p = true → p ≠ 0 →
      heapLe true (aget (arr.swap ⟨0, h0⟩ ⟨m-1, hm1⟩) p)
        (aget (arr.swap ⟨0, h0⟩ ⟨m-1, hm1⟩) c) := by
    intro p c hc hcsz hdp hp0
    rw [hget p, if_neg hp0, if_neg (by omega), hget c, if_neg (by omega), if_neg (by omega)]
    exact heapAll_of_isHeap hheap p c hc (by omega)
  obtain ⟨r, g1, g2, g3, g4, g5, g6⟩ :=
    percolateDown_spec true (arr.swap ⟨0, h0⟩ ⟨m-1, hm1⟩) (m-1) 0 (by omega)
      (by simp; omega) hpre
  have hunm1 : aget r (m-1) = aget arr 0 := by
    rw [g3 (m-1) (Or.inr (le_refl _)), hget (m-1), if_neg hm10, if_pos rfl]
  refine ⟨r, ?_, by simpa using g2, ?_, ?_, ?_, hunm1, ?_⟩
  · unfold popHeapModel
    rw [if_neg (by omega), swapH_ok (by omega) (by omega) hm, ok_bind]
    exact g1
  · intro t ht
    rw [g3 t (Or.inr (by omega)), hget t, if_neg (by omega), if_neg (by omega)]
  · have hrm : segL r m = segL r (m-1) ++ [aget r (m-1)] := by
      have h1 := @segL_succ r (m-1) (by simp at g2 ⊢; omega)
      have h2 : m - 1 + 1 = m := by omega
      rwa [h2] at h1
    have ham : segL (arr.swap ⟨0, h0⟩ ⟨m-1, hm1⟩) m =
        segL (arr.swap ⟨0, h0⟩ ⟨m-1, hm1⟩) (m-1) ++ [aget (arr.swap ⟨0, h0⟩ ⟨m-1, hm1⟩) (m-1)] := by
      have h1 := @segL_succ (arr.swap ⟨0, h0⟩ ⟨m-1, hm1⟩) (m-1) (by simp; omega)
      have h2 : m - 1 + 1 = m := by omega
      rwa [h2] at h1
    rw [hrm, hunm1]
    have hx : aget (arr.swap ⟨0, h0⟩ ⟨m-1, hm1⟩) (m-1) = aget arr 0 := by
      rw [hget (m-1), if_neg hm10, if_pos rfl]
    have step1 : (segL r (m-1) ++ [aget arr 0]).Perm
        (segL (arr.swap ⟨0, h0⟩ ⟨m-1, hm1⟩) (m-1) ++ [aget arr 0]) :=
      g4.append (List.Perm.refl _)
    refine step1.trans ?_
    rw [← hx, ← ham]
    exact segL_swap_perm (by omega) (by omega) hm h0 hm1
  · apply isHeap_of_heapAll
    intro p c hc hcsz hdp
    exact g5 p c hc hcsz hdp
  · intro x hx
    have hx1 : x ∈ segL (arr.swap ⟨0, h0⟩ ⟨m-1, hm1⟩) (m-1) := g4.mem_iff.mp hx
    obtain ⟨t, ht, hxe⟩ := (mem_segL (by simp; omega)).mp hx1
    rw [hget t] at hxe
    by_cases ht0 : t = 0
    · rw [if_pos ht0] at hxe
      have := isHeap_root_le hheap (m-1) (by omega)
      simp only [heapLe] at this
      rw [← hxe]
      exact this
    · rw [if_neg ht0, if_neg (by omega)] at hxe
      have := isHeap_root_le hheap t (by omega)
      simp only [heapLe] at this
      rw [← hxe]
      exact this

theorem popLoop_spec (n : Nat) :
    ∀ cnt m arr, arr.size = n → m ≤ n → cnt < m →
      isHeap true arr m →
      (∀ t1 t2, m ≤ t1 → t1 ≤ t2 → t2 < n → (aget arr t1).level ≤ (aget arr t2).level) →
      (∀ x ∈ segL arr m, ∀ t, m ≤ t → t < n → x.level ≤ (aget arr t).level) →
      ∃ r, popLoop cnt m arr = .ok r ∧ r.size = n ∧
        r.toList.Perm arr.toList ∧
        (∀ t1 t2, m - cnt ≤ t1 → t1 ≤ t2 → t2 < n → (aget r t1).level ≤ (aget r t2).level) ∧
        (∀ x ∈ segL r (m - cnt), ∀ t, m - cnt ≤ t → t < n → x.level ≤ (aget r t).level) := by
  intro cnt
  induction cnt with
  | zero =>
    intro m arr hsize hm hcm hheap hsorted hcross
    exact ⟨arr, rfl, hsize, .refl _, by simpa using hsorted, by simpa using hcross⟩
  | succ cnt ih =>
    intro m arr hsize hm hcm hheap hsorted hcross
    have h2m : 2 ≤ m := by omega
    obtain ⟨r1, p1, p2, p3, p4, p5, p6, p7⟩ := popHeapModel_spec arr m h2m (by omega) hheap
    have hsorted1 : ∀ t1 t2, m-1 ≤ t1 → t1 ≤ t2 → t2 < n →
        (aget r1 t1).level ≤ (aget r1 t2).level := by
      intro t1 t2 h1 h2 h3
      by_cases ht1 : t1 = m-1
      · subst ht1
        rw [p6]
        by_cases ht2 : t2 = m-1
        · rw [ht2, p6]
        · have ht2' : m ≤ t2 := by omega
          rw [p3 t2 ht2']
          have hmem : aget arr 0 ∈ segL arr m := (mem_segL (by omega)).mpr ⟨0, by omega, rfl⟩
          exact hcross _ hmem t2 ht2' h3
      · have h1' : m ≤ t1 := by omega
        rw [p3 t1 h1', p3 t2 (by omega)]
        exact hsorted t1 t2 h1' h2 h3
    have hcross1 : ∀ x ∈ segL r1 (m-1), ∀ t, m-1 ≤ t → t < n → x.level ≤ (aget r1 t).level := by
      intro x hx t ht htn
      by_cases htm : t = m-1
      · subst htm
        rw [p6]
        exact p7 x hx
      · have ht' : m ≤ t := by omega
        rw [p3 t ht']
        have hx2 : x ∈ segL r1 m := by
          have hdec : segL r1 m = segL r1 (m-1) ++ [aget r1 (m-1)] := by
            have h1 := @segL_succ r1 (m-1) (by omega)
            have h2 : m - 1 + 1 = m := by omega
            rwa [h2] at h1
          rw [hdec]
          exact List.mem_append_left _ hx
        have hx3 : x ∈ segL arr m := p4.mem_iff.mp hx2
        exact hcross x hx3 t ht' htn
    obtain ⟨r, q1, q2, q3, q4, q5⟩ := ih (m-1) r1 (by omega) (by omega) (by omega) p5
      hsorted1 hcross1
    refine ⟨r, ?_, q2, ?_, ?_, ?_⟩
    · rw [popLoop, p1, ok_bind]
      exact q1
    · exact q3.trans (toList_perm_of_segL p2 (by omega) p4 p3)
    · have he : m - (cnt+1) = (m-1) - cnt := by omega
      rw [he]
      exact q4
    · have he : m - (cnt+1) = (m-1) - cnt := by omega
      rw [he]
      exact q5

end PopPhase

section HeapRankSpec

/-- Offline::heapRank on a population of at least 2: it succeeds, keeps the
cutoff map empty, and its top_ slice is exactly the floor(size/10) largest
keys in ascending order. -/
theorem heapRank_ok (players : Array Player) (h2 : 2 ≤ players.size) :
    ∃ res, heapRank players = .ok res ∧
      res.cutoffs = [] ∧
      res.top.length = players.size / 10 ∧
      res.top.map Player.level = topKAsc (players.size / 10) (players.toList.map Player.level) := by
  obtain ⟨r1, m1, m2, m3, m4, m5⟩ :=
    makeHeapModel_spec players players.size true (le_refl _)
  have hk : players.size / 10 < players.size := by omega
  obtain ⟨r, q1, q2, q3, q4, q5⟩ := popLoop_spec players.size (players.size / 10)
    players.size r1 m2 (le_refl _) hk m5
    (fun t1 t2 h1 h2 h3 => by omega)
    (fun x hx t h1 h2 => by omega)
  have hperm1 : r1.toList.Perm players.toList :=
    toList_perm_of_segL m2 (le_refl _) m4 m3
  have hne : ¬ players.size ≤ 1 := by omega
  have heq : heapRank players = .ok ⟨r.toList.drop (players.size - players.size / 10), []⟩ := by
    unfold heapRank
    rw [if_neg hne, m1, ok_bind, q1, ok_bind]
    rfl
  have hlenr : r.toList.length = players.size := by simpa using q2
  have hlen : (r.toList.drop (players.size - players.size / 10)).length =
      players.size / 10 := by
    rw [List.length_drop, hlenr]
    omega
  refine ⟨⟨r.toList.drop (players.size - players.size / 10), []⟩, heq, rfl, hlen, ?_⟩
  set n := players.size with hn
  set k := n / 10 with hkdef
  have hgetd : ∀ u (hu : u < (r.toList.drop (n - k)).length),
      (r.toList.drop (n - k))[u] = aget r (n - k + u) := by
    intro u hu
    rw [List.getElem_drop]
    rw [Array.getElem_toList]
    have : n - k + u < r.size := by rw [q2]; omega
    rw [aget_eq_getElem this]
  have hsorted : ((r.toList.drop (n - k)).map Player.level).Sorted (· ≤ ·) := by
    rw [List.Sorted, List.pairwise_map]
    rw [List.pairwise_iff_getElem]
    intro i j hi hj hij
    rw [hgetd i hi, hgetd j hj]
    exact q4 (n - k + i) (n - k + j) (by omega) (by omega)
      (by rw [List.length_drop, hlenr] at hj; omega)
  have hcross : ∀ a ∈ (r.toList.take (n - k)).map Player.level,
      ∀ b ∈ (r.toList.drop (n - k)).map Player.level, a ≤ b := by
    intro a ha b hb
    rw [List.mem_map] at ha hb
    obtain ⟨xa, hxa, hae⟩ := ha
    obtain ⟨xb, hxb, hbe⟩ := hb
    rw [List.mem_iff_getElem] at hxa hxb
    obtain ⟨u, hu, hue⟩ := hxa
    obtain ⟨v, hv, hve⟩ := hxb
    have hu' : u < n - k := by rw [List.length_take, hlenr] at hu; omega
    have hxa2 : xa ∈ segL r (n - k) := by
      rw [← hue]
      exact List.getElem_mem _
    have hcb : xa.level ≤ (aget r (n - k + v)).level := by
      have hv' : n - k + v < n := by rw [List.length_drop, hlenr] at hv; omega
      exact q5 xa hxa2 (n - k + v) (by omega) hv'
    rw [← hae, ← hbe, ← hve, hgetd v hv]
    exact hcb
  have hpermfull : ((r.toList.take (n - k)).map Player.level ++
      (r.toList.drop (n - k)).map Player.level).Perm (players.toList.map Player.level) := by
    rw [← List.map_append, List.take_append_drop]
    exact (q3.trans hperm1).map _
  have := top_eq_topKAsc (players.toList.map Player.level)
    ((r.toList.take (n - k)).map Player.level)
    ((r.toList.drop (n - k)).map Player.level) hpermfull hsorted hcross
  rw [this]
  congr 1
  rw [List.length_map, hlen]

end HeapRankSpec

section TransferHelpers

theorem swap_toList_perm (arr : Array Player) {i j : Nat} (hi : i < arr.size)
    (hj : j < arr.size) : (arr.swap ⟨i, hi⟩ ⟨j, hj⟩).toList.Perm arr.toList := by
  have h := @segL_swap_perm arr i j arr.size hi hj (le_refl _) hi hj
  rw [segL_full] at h
  have hs : segL (arr.swap ⟨i, hi⟩ ⟨j, hj⟩) arr.size = (arr.swap ⟨i, hi⟩ ⟨j, hj⟩).toList := by
    unfold segL
    exact List.take_of_length_le (by simp)
  rwa [hs] at h

theorem middle_perm {P D mb ma : List Player} (h : (P ++ (mb ++ D)).Perm (P ++ (ma ++ D))) :
    mb.Perm ma := by
  have h1 := (List.perm_append_left_iff P).mp h
  exact (List.perm_append_right_iff D).mp h1

theorem list_mid_decomp (l : List Player) (lo hi : Nat) (hlo : lo ≤ hi) :
    l = l.take lo ++ (((l.take hi).drop lo) ++ l.drop hi) := by
  have h1 : l.take lo = (l.take hi).take lo := by
    rw [List.take_take, Nat.min_eq_left hlo]
  calc l = l.take hi ++ l.drop hi := (List.take_append_drop hi l).symm
    _ = l.take lo ++ (((l.take hi).drop lo) ++ l.drop hi) := by
        conv_lhs => rw [← List.take_append_drop lo (l.take hi)]
        rw [← h1, List.append_assoc]

theorem mem_drop_segL {arr : Array Player} {lo hi : Nat} (hhi : hi ≤ arr.size) {x : Player} :
    x ∈ (segL arr hi).drop lo ↔ ∃ t, lo ≤ t ∧ t < hi ∧ aget arr t = x := by
  have hlen : ((segL arr hi).drop lo).length = (min hi arr.size) - lo := by
    simp [length_segL]
  rw [List.mem_iff_getElem]
  constructor
  · rintro ⟨u, hu, he⟩
    rw [hlen] at hu
    refine ⟨lo + u, by omega, by omega, ?_⟩
    rw [← he, List.getElem_drop,
      getElem_segL (show lo+u < hi by omega) (show lo+u < arr.size by omega)
        (by rw [length_segL]; omega)]
  · rintro ⟨t, ht1, ht2, he⟩
    refine ⟨t - lo, by rw [hlen]; omega, ?_⟩
    rw [List.getElem_drop]
    simp only [show lo + (t - lo) = t from by omega]
    rw [getElem_segL (show t < hi by omega) (show t < arr.size by omega)
      (by rw [length_segL]; omega)]
    exact he

/-- Transfer of segment values: if `b` is a permutation of `a` that agrees
with `a` outside `[lo, hi)`, then every entry of `b` inside `[lo, hi)` equals
some entry of `a` inside `[lo, hi)`. -/
theorem seg_value_transfer {a b : Array Player} (hsize : b.size = a.size)
    (hperm : b.toList.Perm a.toList) (lo hi : Nat) (hlohi : lo ≤ hi) (hhi : hi ≤ a.size)
    (hun : ∀ t : Nat, t < lo ∨ hi ≤ t → aget b t = aget a t) :
    ∀ q, lo ≤ q → q < hi → ∃ q0, lo ≤ q0 ∧ q0 < hi ∧ aget b q = aget a q0 := by
  have htake : b.toList.take lo = a.toList.take lo := by
    apply List.ext_getElem
    · simp [hsize]
    · intro t h1 h2
      have ht1 : t < b.size := by simp at h1; omega
      have ht2 : t < a.size := by simp at h2; omega
      rw [List.getElem_take, List.getElem_take, Array.getElem_toList, Array.getElem_toList,
        ← aget_eq_getElem ht1, ← aget_eq_getElem ht2]
      exact hun t (Or.inl (by simp at h1; omega))
  have hdrop : b.toList.drop hi = a.toList.drop hi := by
    apply List.ext_getElem
    · simp [hsize]
    · intro t h1 h2
      have ht1 : hi + t < b.size := by simp at h1; omega
      have ht2 : hi + t < a.size := by simp at h2; omega
      rw [List.getElem_drop, List.getElem_drop, Array.getElem_toList, Array.getElem_toList,
        ← aget_eq_getElem ht1, ← aget_eq_getElem ht2]
      exact hun (hi+t) (Or.inr (by omega))
  have hmidperm : ((segL b hi).drop lo).Perm ((segL a hi).drop lo) := by
    apply @middle_perm (a.toList.take lo) (a.toList.drop hi) _ _
    have hb := list_mid_decomp b.toList lo hi hlohi
    have ha := list_mid_decomp a.toList lo hi hlohi
    rw [htake, hdrop] at hb
    unfold segL
    rw [← hb, ← ha]
    exact hperm
  intro q hq1 hq2
  have hqb : q < b.size := by omega
  have hmem : aget b q ∈ (segL b hi).drop lo :=
    (mem_drop_segL (by omega)).mpr ⟨q, hq1, hq2, rfl⟩
  have hmem2 : aget b q ∈ (segL a hi).drop lo := hmidperm.mem_iff.mp hmem
  obtain ⟨q0, hq01, hq02, hq0e⟩ := (mem_drop_segL hhi).mp hmem2
  exact ⟨q0, hq01, hq02, hq0e.symm⟩

end TransferHelpers

section Lomuto

theorem lomutoLoop_spec (low high : Int) (pvP : Player) :
    ∀ (fuelm : Nat) (arr : Array Player) (i j : Int),
      (high - j).toNat ≤ fuelm →
      0 ≤ low → low ≤ i → i ≤ j → j ≤ high → high < (arr.size : Int) →
      aget arr high.toNat = pvP →
      (∀ x : Int, low ≤ x → x < i → pvP.level < (aget arr x.toNat).level) →
      (∀ x : Int, i ≤ x → x < j → (aget arr x.toNat).level ≤ pvP.level) →
      ∃ arr' i', lomutoLoop high high arr i j = .ok (arr', i') ∧
        arr'.size = arr.size ∧ arr'.toList.Perm arr.toList ∧
        i ≤ i' ∧ i' ≤ high ∧
        (∀ x : Int, low ≤ x → x < i' → pvP.level < (aget arr' x.toNat).level) ∧
        (∀ x : Int, i' ≤ x → x < high → (aget arr' x.toNat).level ≤ pvP.level) ∧
        (∀ t : Nat, ((t : Int) < i ∨ high ≤ (t : Int)) → aget arr' t = aget arr t) := by
  intro fuelm
  induction fuelm with
  | zero =>
    intro arr i j hf h0 hli hij hjh hhs hpv hlt hle
    have hjh' : j = high := by omega
    subst hjh'
    rw [lomutoLoop, dif_neg (by omega)]
    exact ⟨arr, i, rfl, rfl, .refl _, le_refl _, by omega, hlt, hle, fun t _ => rfl⟩
  | succ fuelm ih =>
    intro arr i j hf h0 hli hij hjh hhs hpv hlt hle
    by_cases hjlt : j < high
    · rw [lomutoLoop, dif_pos hjlt]
      have hj0 : (0:Int) ≤ j := by omega
      have hjsz : j.toNat < arr.size := by omega
      have hh0 : (0:Int) ≤ high := by omega
      have hhsz : high.toNat < arr.size := by omega
      rw [readA_ok hj0 hjsz, ok_bind, readA_ok hh0 hhsz, ok_bind, hpv]
      by_cases hcmp : pvP.level < (aget arr j.toNat).level
      · rw [if_pos hcmp]
        have hi0 : (0:Int) ≤ i := by omega
        have hisz : i.toNat < arr.size := by omega
        rw [swapA_ok hi0 hj0 hisz hjsz, ok_bind]
        have hget := aget_swap hisz hjsz
        have hpv' : aget (arr.swap ⟨i.toNat, hisz⟩ ⟨j.toNat, hjsz⟩) high.toNat = pvP := by
          rw [hget, if_neg (by omega), if_neg (by omega)]
          exact hpv
        have hlt' : ∀ x : Int, low ≤ x → x < i+1 →
            pvP.level < (aget (arr.swap ⟨i.toNat, hisz⟩ ⟨j.toNat, hjsz⟩) x.toNat).level := by
          intro x hx1 hx2
          by_cases hxi : x = i
          · subst hxi
            rw [hget, if_pos rfl]
            exact hcmp
          · rw [hget, if_neg (by omega), if_neg (by omega)]
            exact hlt x hx1 (by omega)
        have hle' : ∀ x : Int, i+1 ≤ x → x < j+1 →
            (aget (arr.swap ⟨i.toNat, hisz⟩ ⟨j.toNat, hjsz⟩) x.toNat).level ≤ pvP.level := by
          intro x hx1 hx2
          by_cases hxj : x = j
          · subst hxj
            have hij' : i < x := by omega
            rw [hget, if_neg (by omega), if_pos rfl]
            exact hle i (le_refl _) (by omega)
          · rw [hget, if_neg (by omega), if_neg (by omega)]
            exact hle x (by omega) (by omega)
        obtain ⟨arr', i', g1, g2, g3, g4, g5, g6, g7, g8⟩ :=
          ih (arr.swap ⟨i.toNat, hisz⟩ ⟨j.toNat, hjsz⟩) (i+1) (j+1)
            (by omega) h0 (by omega) (by omega) (by omega) (by simpa using hhs)
            hpv' hlt' hle'
        refine ⟨arr', i', g1, by simp at g2 ⊢; omega,
          g3.trans (swap_toList_perm arr hisz hjsz), by omega, g5, g6, g7, ?_⟩
        intro t ht
        have h1 : aget arr' t = aget (arr.swap ⟨i.toNat, hisz⟩ ⟨j.toNat, hjsz⟩) t :=
          g8 t (by omega)
        rw [h1, hget, if_neg (by omega), if_neg (by omega)]
      · rw [if_neg hcmp]
        have hle' : ∀ x : Int, i ≤ x → x < j+1 → (aget arr x.toNat).level ≤ pvP.level := by
          intro x hx1 hx2
          by_cases hxj : x = j
          · subst hxj
            omega
          · exact hle x hx1 (by omega)
        obtain ⟨arr', i', g1, g2, g3, g4, g5, g6, g7, g8⟩ :=
          ih arr i (j+1) (by omega) h0 hli (by omega) (by omega) hhs hpv hlt hle'
        exact ⟨arr', i', g1, g2, g3, g4, g5, g6, g7, g8⟩
    · have hjh' : j = high := by omega
      subst hjh'
      rw [lomutoLoop, dif_neg (by omega)]
      exact ⟨arr, i, rfl, rfl, .refl _, le_refl _, by omega, hlt, hle, fun t _ => rfl⟩

theorem lomuto_partition_spec (arr : Array Player) (low high : Int)
    (h0 : 0 ≤ low) (hlh : low ≤ high) (hhs : high < (arr.size : Int)) :
    ∃ arr' idx, lomuto_partition arr low high high = .ok (arr', idx) ∧
      arr'.size = arr.size ∧ arr'.toList.Perm arr.toList ∧
      low ≤ idx ∧ idx ≤ high ∧
      aget arr' idx.toNat = aget arr high.toNat ∧
      (∀ x : Int, low ≤ x → x < idx →
        (aget arr high.toNat).level < (aget arr' x.toNat).level) ∧
      (∀ x : Int, idx < x → x ≤ high →
        (aget arr' x.toNat).level ≤ (aget arr high.toNat).level) ∧
      (∀ t : Nat, ((t : Int) < low ∨ high < (t : Int)) → aget arr' t = aget arr t) := by
  obtain ⟨arr1, i', g1, g2, g3, g4, g5, g6, g7, g8⟩ :=
    lomutoLoop_spec low high (aget arr high.toNat) (high - low).toNat arr low low
      (by omega) h0 (le_refl _) (le_refl _) hlh hhs rfl
      (fun x hx1 hx2 => by omega) (fun x hx1 hx2 => by omega)
  have hi0 : (0:Int) ≤ i' := by omega
  have hh0 : (0:Int) ≤ high := by omega
  have hisz : i'.toNat < arr1.size := by omega
  have hhsz : high.toNat < arr1.size := by omega
  have hget := aget_swap hhsz hisz
  have hpv1 : aget arr1 high.toNat = aget arr high.toNat := g8 high.toNat (by omega)
  refine ⟨arr1.swap ⟨high.toNat, hhsz⟩ ⟨i'.toNat, hisz⟩, i', ?_, ?_, ?_, g4, g5, ?_, ?_, ?_, ?_⟩
  · unfold lomuto_partition
    rw [g1]
    simp only [ok_bind]
    rw [swapA_ok hh0 hi0 hhsz hisz, ok_bind]
    rfl
  · simp
    omega
  · exact (swap_toList_perm arr1 hhsz hisz).trans g3
  · by_cases hie : i'.toNat = high.toNat
    · rw [hget, if_pos hie, hie]
      exact hpv1
    · rw [hget, if_neg hie, if_pos rfl]
      exact hpv1
  · intro x hx1 hx2
    rw [hget, if_neg (by omega), if_neg (by omega)]
    exact g6 x hx1 hx2
  · intro x hx1 hx2
    by_cases hxh : x = high
    · subst hxh
      by_cases hie : i' = x
      · omega
      · rw [hget, if_pos rfl]
        exact g7 i' (le_refl _) (by omega)
    · rw [hget, if_neg (by omega), if_neg (by omega)]
      exact g7 x (by omega) (by omega)
  · intro t ht
    rw [hget, if_neg (by omega), if_neg (by omega)]
    exact g8 t (by omega)

end Lomuto

section Scans

theorem lscan_spec (pv : Nat) (high : Int) (arr : Array Player) (stop : Int)
    (hstop2 : stop ≤ high + 1) (hstop3 : stop < (arr.size : Int))
    (hstop4 : stop ≤ high → pv ≤ (aget arr stop.toNat).level) :
    ∀ n : Nat, ∀ i : Int, -1 ≤ i → i < stop → (stop - i).toNat ≤ n →
      (∀ x : Int, i < x → x < stop → (aget arr x.toNat).level < pv) →
      lscan pv high arr i = .ok stop := by
  intro n
  induction n with
  | zero =>
    intro i h1 h2 h3 hmid
    omega
  | succ n ih =>
    intro i h1 h2 h3 hmid
    rw [lscan]
    have h01 : (0:Int) ≤ i+1 := by omega
    have hsz : (i+1).toNat < arr.size := by omega
    rw [readA_ok h01 hsz, ok_bind]
    by_cases hstopd : i + 1 = stop
    · rw [dif_neg ?side]
      · rw [hstopd]; rfl
      case side =>
        rw [hstopd]
        intro hcon
        rcases hcon with ⟨hv, hh⟩
        have := hstop4 hh
        omega
    · have hin : i + 1 < stop := by omega
      have hval := hmid (i+1) (by omega) hin
      rw [dif_pos ⟨hval, by omega⟩]
      exact ih (i+1) (by omega) hin (by omega) (fun x hx1 hx2 => hmid x (by omega) hx2)

theorem rscan_spec (pv : Nat) (low : Int) (arr : Array Player) (stop : Int)
    (hlow : low ≤ stop) (h0 : 0 ≤ low)
    (hstop4 : (aget arr stop.toNat).level ≤ pv) :
    ∀ n : Nat, ∀ j : Int, stop < j → j - 1 < (arr.size : Int) → (j - stop).toNat ≤ n →
      (∀ x : Int, stop < x → x < j → pv < (aget arr x.toNat).level) →
      rscan pv low arr j = .ok stop := by
  intro n
  induction n with
  | zero =>
    intro j h1 h2 h3 hmid
    omega
  | succ n ih =>
    intro j h1 h2 h3 hmid
    rw [rscan]
    have h01 : (0:Int) ≤ j-1 := by omega
    have hsz : (j-1).toNat < arr.size := by omega
    rw [readA_ok h01 hsz, ok_bind]
    by_cases hstopd : j - 1 = stop
    · rw [dif_neg ?side]
      · rw [hstopd]; rfl
      case side =>
        rw [hstopd]
        intro hcon
        omega
    · have hin : stop < j - 1 := by omega
      have hval := hmid (j-1) hin (by omega)
      rw [dif_pos ⟨hval, by omega⟩]
      exact ih (j-1) hin (by omega) (by omega) (fun x hx1 hx2 => hmid x hx1 (by omega))

end Scans

section Hoare

theorem exists_first_ge (arr : Array Player) (pv : Nat) (lo hi : Int)
    (hlohi : lo ≤ hi) (hval : pv ≤ (aget arr hi.toNat).level) :
    ∃ stop : Int, lo ≤ stop ∧ stop ≤ hi ∧ pv ≤ (aget arr stop.toNat).level ∧
      ∀ x : Int, lo ≤ x → x < stop → (aget arr x.toNat).level < pv := by
  have hex : ∃ n : Nat, lo + n ≤ hi ∧ pv ≤ (aget arr (lo + n).toNat).level := by
    refine ⟨(hi - lo).toNat, by omega, ?_⟩
    have he : lo + ((hi - lo).toNat : Int) = hi := by omega
    rw [he]
    exact hval
  classical
  obtain ⟨hn1, hn2⟩ := Nat.find_spec hex
  refine ⟨lo + Nat.find hex, by omega, hn1, hn2, ?_⟩
  intro x hx1 hx2
  have hm : (x - lo).toNat < Nat.find hex := by omega
  have := Nat.find_min hex hm
  rw [not_and_or] at this
  rcases this with h | h
  · omega
  · have he : lo + ((x - lo).toNat : Int) = x := by omega
    rw [he] at h
    omega

theorem exists_first_le_down (arr : Array Player) (pv : Nat) (lo hi : Int)
    (hlohi : lo ≤ hi) (hval : (aget arr lo.toNat).level ≤ pv) :
    ∃ stop : Int, lo ≤ stop ∧ stop ≤ hi ∧ (aget arr stop.toNat).level ≤ pv ∧
      ∀ x : Int, stop < x → x ≤ hi → pv < (aget arr x.toNat).level := by
  have hex : ∃ n : Nat, lo ≤ hi - n ∧ (aget arr (hi - n).toNat).level ≤ pv := by
    refine ⟨(hi - lo).toNat, by omega, ?_⟩
    have he : hi - ((hi - lo).toNat : Int) = lo := by omega
    rw [he]
    exact hval
  classical
  obtain ⟨hn1, hn2⟩ := Nat.find_spec hex
  refine ⟨hi - Nat.find hex, hn1, by omega, hn2, ?_⟩
  intro x hx1 hx2
  have hm : (hi - x).toNat < Nat.find hex := by omega
  have := Nat.find_min hex hm
  rw [not_and_or] at this
  rcases this with h | h
  · omega
  · have he : hi - ((hi - x).toNat : Int) = x := by omega
    rw [he] at h
    omega

theorem hoareLoop_spec (pv : Nat) (low high : Int) :
    ∀ (fuel : Nat) (arr : Array Player) (ip jp : Int),
      0 ≤ low → low < high → high + 1 < (arr.size : Int) →
      low ≤ ip → ip ≤ jp → jp ≤ high →
      (ip = jp → low < ip) →
      (high + 2 - ip).toNat ≤ fuel →
      (∀ x : Int, low ≤ x → x ≤ ip → (aget arr x.toNat).level ≤ pv) →
      (∀ x : Int, jp ≤ x → x ≤ high → pv ≤ (aget arr x.toNat).level) →
      ∃ arr' j, hoareLoop pv low high fuel arr ip jp = .ok (arr', j) ∧
        arr'.size = arr.size ∧ arr'.toList.Perm arr.toList ∧
        low ≤ j ∧ j < high ∧
        (∀ x : Int, low ≤ x → x ≤ j → (aget arr' x.toNat).level ≤ pv) ∧
        (∀ x : Int, j < x → x ≤ high → pv ≤ (aget arr' x.toNat).level) ∧
        (∀ t : Nat, ((t:Int) < low ∨ high < (t:Int)) → aget arr' t = aget arr t) := by
  intro fuel
  induction fuel with
  | zero =>
    intro arr ip jp h0 hlh hhs hip hij hjh hmeet hf
    omega
  | succ fuel ih =>
    intro arr ip jp h0 hlh hhs hip hij hjh hmeet hf hH1 hH2
    by_cases hm : ip = jp
    · subst hm
      have hlo : low < ip := hmeet rfl
      have hsi : lscan pv high arr ip = .ok (ip + 1) := by
        apply lscan_spec pv high arr (ip+1) (by omega) (by omega) ?_ (ip+1-ip).toNat ip
          (by omega) (by omega) (by omega)
        · intro x hx1 hx2
          omega
        · intro hle
          exact hH2 (ip+1) (by omega) (by omega)
      have hsj : rscan pv low arr ip = .ok (ip - 1) := by
        apply rscan_spec pv low arr (ip-1) (by omega) h0 ?_ (ip-(ip-1)).toNat ip
          (by omega) (by omega) (by omega)
        · intro x hx1 hx2
          omega
        · exact hH1 (ip-1) (by omega) (by omega)
      rw [hoareLoop, hsi, ok_bind, hsj, ok_bind, if_pos (by omega : ip - 1 < ip + 1)]
      refine ⟨arr, ip - 1, rfl, rfl, .refl _, by omega, by omega, ?_, ?_, fun t _ => rfl⟩
      · intro x hx1 hx2
        exact hH1 x hx1 (by omega)
      · intro x hx1 hx2
        exact hH2 x (by omega) hx2
    · have hipjp : ip < jp := by omega
      obtain ⟨si, hsi1, hsi2, hsi3, hsi4⟩ :=
        exists_first_ge arr pv (ip+1) jp (by omega) (hH2 jp (le_refl _) hjh)
      obtain ⟨sj, hsj1, hsj2, hsj3, hsj4⟩ :=
        exists_first_le_down arr pv ip (jp-1) (by omega) (hH1 ip (by omega) (le_refl _))
      have hlsi : lscan pv high arr ip = .ok si := by
        apply lscan_spec pv high arr si (by omega) (by omega) (fun _ => hsi3)
          (si - ip).toNat ip (by omega) (by omega) (by omega)
        intro x hx1 hx2
        exact hsi4 x (by omega) hx2
      have hrsj : rscan pv low arr jp = .ok sj := by
        apply rscan_spec pv low arr sj (by omega) h0 hsj3 (jp - sj).toNat jp
          (by omega) (by omega) (by omega)
        intro x hx1 hx2
        exact hsj4 x hx1 (by omega)
      rw [hoareLoop, hlsi, ok_bind, hrsj, ok_bind]
      by_cases hbr : sj < si
      · rw [if_pos hbr]
        refine ⟨arr, sj, rfl, rfl, .refl _, by omega, by omega, ?_, ?_, fun t _ => rfl⟩
        · intro x hx1 hx2
          by_cases hxip : x ≤ ip
          · exact hH1 x hx1 hxip
          · exact le_of_lt (hsi4 x (by omega) (by omega))
        · intro x hx1 hx2
          by_cases hxjp : jp ≤ x
          · exact hH2 x hxjp hx2
          · exact le_of_lt (hsj4 x hx1 (by omega))
      · rw [if_neg hbr]
        have hsij : si ≤ sj := by omega
        have hsi0 : (0:Int) ≤ si := by omega
        have hsj0 : (0:Int) ≤ sj := by omega
        have hsisz : si.toNat < arr.size := by omega
        have hsjsz : sj.toNat < arr.size := by omega
        rw [swapA_ok hsi0 hsj0 hsisz hsjsz, ok_bind]
        have hget := aget_swap hsisz hsjsz
        have hH1' : ∀ x : Int, low ≤ x → x ≤ si →
            (aget (arr.swap ⟨si.toNat, hsisz⟩ ⟨sj.toNat, hsjsz⟩) x.toNat).level ≤ pv := by
          intro x hx1 hx2
          by_cases hxsi : x = si
          · subst hxsi
            rw [hget, if_pos rfl]
            exact hsj3
          · rw [hget, if_neg (by omega), if_neg (by omega)]
            by_cases hxip : x ≤ ip
            · exact hH1 x hx1 hxip
            · exact le_of_lt (hsi4 x (by omega) (by omega))
        have hH2' : ∀ x : Int, sj ≤ x → x ≤ high →
            (pv ≤ (aget (arr.swap ⟨si.toNat, hsisz⟩ ⟨sj.toNat, hsjsz⟩) x.toNat).level) := by
          intro x hx1 hx2
          by_cases hxsj : x = sj
          · by_cases hee : sj = si
            · rw [hget, if_pos (by omega), hee]
              exact hsi3
            · rw [hget, if_neg (by omega), if_pos (by omega)]
              exact hsi3
          · rw [hget, if_neg (by omega), if_neg (by omega)]
            by_cases hxjp : jp ≤ x
            · exact hH2 x hxjp hx2
            · exact le_of_lt (hsj4 x (by omega) (by omega))
        obtain ⟨arr', j, g1, g2, g3, g4, g5, g6, g7, g8⟩ :=
          ih (arr.swap ⟨si.toNat, hsisz⟩ ⟨sj.toNat, hsjsz⟩) si sj h0 hlh
            (by simpa using hhs) (by omega) hsij (by omega) (fun _ => by omega)
            (by omega) hH1' hH2'
        refine ⟨arr', j, g1, by simp at g2 ⊢; omega,
          g3.trans (swap_toList_perm arr hsisz hsjsz), g4, g5, g6, g7, ?_⟩
        intro t ht
        rw [g8 t ht, hget, if_neg (by omega), if_neg (by omega)]

theorem hoare_partition_spec (arr : Array Player) (low high : Int)
    (h0 : 0 ≤ low) (hlh : low < high) (hhs : high + 1 < (arr.size : Int)) :
    ∃ arr' j, hoare_partition arr low high high = .ok (arr', j) ∧
      arr'.size = arr.size ∧ arr'.toList.Perm arr.toList ∧
      low ≤ j ∧ j < high ∧
      (∀ x : Int, low ≤ x → x ≤ j →
        (aget arr' x.toNat).level ≤ (aget arr high.toNat).level) ∧
      (∀ x : Int, j < x → x ≤ high →
        (aget arr high.toNat).level ≤ (aget arr' x.toNat).level) ∧
      (∀ t : Nat, ((t:Int) < low ∨ high < (t:Int)) → aget arr' t = aget arr t) := by
  have hh0 : (0:Int) ≤ high := by omega
  have hhsz : high.toNat < arr.size := by omega
  obtain ⟨si, hsi1, hsi2, hsi3, hsi4⟩ :=
    exists_first_ge arr (aget arr high.toNat).level low high (by omega) (le_refl _)
  have hlsi : lscan (aget arr high.toNat).level high arr (low - 1) = .ok si := by
    apply lscan_spec _ high arr si (by omega) (by omega) (fun _ => hsi3)
      (si - (low-1)).toNat (low-1) (by omega) (by omega) (by omega)
    intro x hx1 hx2
    exact hsi4 x (by omega) hx2
  have hrsj : rscan (aget arr high.toNat).level low arr (high + 1) = .ok high := by
    apply rscan_spec _ low arr high (by omega) h0 (le_refl _)
      ((high + 1) - high).toNat (high+1) (by omega) (by omega) (by omega)
    intro x hx1 hx2
    omega
  have hsi0 : (0:Int) ≤ si := by omega
  have hsisz : si.toNat < arr.size := by omega
  have hget := aget_swap hsisz hhsz
  have hH1 : ∀ x : Int, low ≤ x → x ≤ si →
      (aget (arr.swap ⟨si.toNat, hsisz⟩ ⟨high.toNat, hhsz⟩) x.toNat).level ≤
        (aget arr high.toNat).level := by
    intro x hx1 hx2
    by_cases hxsi : x = si
    · subst hxsi
      rw [hget, if_pos rfl]
    · rw [hget, if_neg (by omega), if_neg (by omega)]
      exact le_of_lt (hsi4 x hx1 (by omega))
  have hH2 : ∀ x : Int, high ≤ x → x ≤ high →
      (aget arr high.toNat).level ≤
        (aget (arr.swap ⟨si.toNat, hsisz⟩ ⟨high.toNat, hhsz⟩) x.toNat).level := by
    intro x hx1 hx2
    have hxh : x = high := by omega
    by_cases hee : si = high
    · rw [hget, if_pos (by omega)]
    · rw [hget, if_neg (by omega), if_pos (by omega)]
      exact hsi3
  obtain ⟨arr', j, g1, g2, g3, g4, g5, g6, g7, g8⟩ :=
    hoareLoop_spec (aget arr high.toNat).level low high ((high - low).toNat + 2)
      (arr.swap ⟨si.toNat, hsisz⟩ ⟨high.toNat, hhsz⟩) si high h0 hlh
      (by simp; omega) hsi1 hsi2 (le_refl _) (fun _ => by omega) (by omega) hH1 hH2
  refine ⟨arr', j, ?_, by simp at g2 ⊢; omega,
    g3.trans (swap_toList_perm arr hsisz hhsz), g4, g5, g6, g7, ?_⟩
  · unfold hoare_partition
    rw [readA_ok hh0 hhsz, ok_bind]
    have hfe : (high - low).toNat + 3 = ((high - low).toNat + 2) + 1 := rfl
    rw [hfe, hoareLoop, hlsi, ok_bind, hrsj, ok_bind, if_neg (by omega : ¬ high < si),
      swapA_ok hsi0 hh0 hsisz hhsz, ok_bind]
    exact g1
  · intro t ht
    rw [g8 t ht, hget, if_neg (by omega), if_neg (by omega)]

end Hoare

section QuickSortSelect

theorem quickSort_spec :
    ∀ (fuel : Nat) (arr : Array Player) (low high : Int),
      1 ≤ fuel →
      (high - low + 2).toNat ≤ fuel →
      0 ≤ low →
      (low < high → high + 1 < (arr.size : Int)) →
      ∃ r, quickSort fuel arr low high = .ok r ∧
        r.size = arr.size ∧ r.toList.Perm arr.toList ∧
        (∀ x y : Int, low ≤ x → x ≤ y → y ≤ high →
          (aget r x.toNat).level ≤ (aget r y.toNat).level) ∧
        (∀ t : Nat, ((t:Int) < low ∨ high < (t:Int)) → aget r t = aget arr t) := by
  intro fuel
  induction fuel with
  | zero =>
    intro arr low high h1
    omega
  | succ fuel ih =>
    intro arr low high h1 hme h0 hbnd
    by_cases hguard : low < high
    · have hhs : high + 1 < (arr.size : Int) := hbnd hguard
      obtain ⟨arr1, j, p1, p2, p3, p4, p5, p6, p7, p8⟩ :=
        hoare_partition_spec arr low high h0 hguard hhs
      obtain ⟨r2, q1, q2, q3, q4, q5⟩ := ih arr1 low j (by omega) (by omega) h0
        (fun hlj => by omega)
      obtain ⟨r, s1, s2, s3, s4, s5⟩ := ih r2 (j+1) high (by omega) (by omega) (by omega)
        (fun hjh => by omega)
      have hsz1 : arr1.size = arr.size := p2
      have hsz2 : r2.size = arr.size := by omega
      have hszr : r.size = arr.size := by omega
      have hj0 : (0:Int) ≤ j := by omega
      -- values at [low, j] in r2 come from arr1's [low, j] segment
      have htr2 := @seg_value_transfer arr1 r2 (by omega) q3
        low.toNat (j.toNat + 1) (by omega) (by omega)
        (fun t ht => q5 t (by omega))
      -- values at [j+1, high] in r come from r2's [j+1, high] segment
      have htr := @seg_value_transfer r2 r (by omega) s3
        (j+1).toNat (high.toNat + 1) (by omega) (by omega)
        (fun t ht => s5 t (by omega))
      have hA : ∀ z : Int, low ≤ z → z ≤ j →
          (aget r z.toNat).level ≤ (aget arr high.toNat).level := by
        intro z hz1 hz2
        have he1 : aget r z.toNat = aget r2 z.toNat := s5 z.toNat (by omega)
        obtain ⟨z0, hz01, hz02, hz0e⟩ := htr2 z.toNat (by omega) (by omega)
        rw [he1, hz0e]
        exact p6 (z0 : Int) (by omega) (by omega)
      have hB : ∀ z : Int, j+1 ≤ z → z ≤ high →
          (aget arr high.toNat).level ≤ (aget r z.toNat).level := by
        intro z hz1 hz2
        obtain ⟨z0, hz01, hz02, hz0e⟩ := htr z.toNat (by omega) (by omega)
        have he1 : aget r2 z0 = aget arr1 z0 := q5 z0 (by omega)
        rw [hz0e, he1]
        exact p7 (z0 : Int) (by omega) (by omega)
      refine ⟨r, ?_, by omega, (s3.trans q3).trans p3, ?_, ?_⟩
      · rw [quickSort, if_pos ⟨hguard, h0⟩, p1]
        simp only [ok_bind]
        rw [q1, ok_bind, s1]
      · intro x y hx hxy hy
        by_cases hyj : y ≤ j
        · have hex : aget r x.toNat = aget r2 x.toNat := s5 x.toNat (by omega)
          have hey : aget r y.toNat = aget r2 y.toNat := s5 y.toNat (by omega)
          rw [hex, hey]
          exact q4 x y hx hxy hyj
        · by_cases hxj : j + 1 ≤ x
          · exact s4 x y hxj hxy hy
          · exact le_trans (hA x hx (by omega)) (hB y (by omega) hy)
      · intro t ht
        rw [s5 t (by omega), q5 t (by omega), p8 t (by omega)]
    · rw [quickSort, if_neg (by omega)]
      refine ⟨arr, ?_, rfl, .refl _, ?_, fun t _ => rfl⟩
      · cases fuel <;> rfl
      · intro x y hx hxy hy
        have hxy' : x = y := by omega
        rw [hxy']

theorem quickSelect_spec :
    ∀ (fuel : Nat) (arr : Array Player) (low high k : Int),
      (high - low + 2).toNat ≤ fuel →
      0 ≤ low → high < (arr.size : Int) →
      low ≤ k → k ≤ high + 1 →
      (∀ p q : Int, 0 ≤ p → p < low → low ≤ q → q < (arr.size : Int) →
        (aget arr q.toNat).level ≤ (aget arr p.toNat).level) →
      (∀ p q : Int, 0 ≤ p → p ≤ high → high < q → q < (arr.size : Int) →
        (aget arr q.toNat).level ≤ (aget arr p.toNat).level) →
      ∃ r, quickSelect fuel arr low high k = .ok r ∧
        r.size = arr.size ∧ r.toList.Perm arr.toList ∧
        (∀ p q : Int, 0 ≤ p → p < k → k ≤ q → q < (arr.size : Int) →
          (aget r q.toNat).level ≤ (aget r p.toNat).level) := by
  intro fuel
  induction fuel with
  | zero =>
    intro arr low high k hf h0 hhs hlk hkh
    omega
  | succ fuel ih =>
    intro arr low high k hf h0 hhs hlk hkh hctx1 hctx2
    by_cases hguard : low ≤ high
    · obtain ⟨arr1, idx, p1, p2, p3, p4, p5, p6, p7, p8, p9⟩ :=
        lomuto_partition_spec arr low high h0 hguard hhs
      have htr := @seg_value_transfer arr arr1 p2 p3
        low.toNat (high.toNat + 1) (by omega) (by omega)
        (fun t ht => p9 t (by omega))
      -- pivot value bound used repeatedly
      have hpvq : ∀ q : Int, high < q → q < (arr.size : Int) →
          (aget arr q.toNat).level ≤ (aget arr high.toNat).level := by
        intro q hq1 hq2
        exact hctx2 high q (by omega) (le_refl _) hq1 hq2
      by_cases hik : idx < k
      · have hctx1' : ∀ p q : Int, 0 ≤ p → p < idx+1 → idx+1 ≤ q → q < (arr1.size : Int) →
            (aget arr1 q.toNat).level ≤ (aget arr1 p.toNat).level := by
          intro p q hp0 hp hq hqs
          have hqv : (aget arr1 q.toNat).level ≤ (aget arr high.toNat).level := by
            by_cases hqh : q ≤ high
            · exact p8 q (by omega) hqh
            · rw [p9 q.toNat (by omega)]
              exact hpvq q (by omega) (by omega)
          by_cases hpl : p < low
          · have hpv : aget arr1 p.toNat = aget arr p.toNat := p9 p.toNat (by omega)
            by_cases hql : q ≤ high
            · obtain ⟨q0, hq01, hq02, hq0e⟩ := htr q.toNat (by omega) (by omega)
              rw [hpv, hq0e]
              exact hctx1 p (q0 : Int) hp0 hpl (by omega) (by omega)
            · rw [hpv, p9 q.toNat (by omega)]
              exact hctx1 p q hp0 hpl (by omega) (by omega)
          · have hppv : (aget arr high.toNat).level ≤ (aget arr1 p.toNat).level := by
              by_cases hpi : p = idx
              · rw [hpi, p6]
              · exact le_of_lt (p7 p (by omega) (by omega))
            exact le_trans hqv hppv
        have hctx2' : ∀ p q : Int, 0 ≤ p → p ≤ high → high < q → q < (arr1.size : Int) →
            (aget arr1 q.toNat).level ≤ (aget arr1 p.toNat).level := by
          intro p q hp0 hp hq hqs
          have hqv : aget arr1 q.toNat = aget arr q.toNat := p9 q.toNat (by omega)
          by_cases hpl : p < low
          · rw [hqv, p9 p.toNat (by omega)]
            exact hctx2 p q hp0 hp hq (by omega)
          · obtain ⟨p0, hp01, hp02, hp0e⟩ := htr p.toNat (by omega) (by omega)
            rw [hqv, hp0e]
            exact hctx2 (p0 : Int) q (by omega) (by omega) hq (by omega)
        obtain ⟨r, g1, g2, g3, g4⟩ := ih arr1 (idx+1) high k (by omega) (by omega)
          (by omega) (by omega) hkh hctx1' hctx2'
        refine ⟨r, ?_, by omega, g3.trans p3, ?_⟩
        · rw [quickSelect, if_pos ⟨hguard, h0⟩, p1]
          simp only [ok_bind]
          rw [if_pos hik]
          exact g1
        · intro p q hp0 hp hq hqs
          exact g4 p q hp0 hp hq (by omega)
      · have hctx1' : ∀ p q : Int, 0 ≤ p → p < low → low ≤ q → q < (arr1.size : Int) →
            (aget arr1 q.toNat).level ≤ (aget arr1 p.toNat).level := by
          intro p q hp0 hp hq hqs
          have hpv : aget arr1 p.toNat = aget arr p.toNat := p9 p.toNat (by omega)
          by_cases hql : q ≤ high
          · obtain ⟨q0, hq01, hq02, hq0e⟩ := htr q.toNat (by omega) (by omega)
            rw [hpv, hq0e]
            exact hctx1 p (q0 : Int) hp0 hp (by omega) (by omega)
          · rw [hpv, p9 q.toNat (by omega)]
            exact hctx1 p q hp0 hp hq (by omega)
        have hctx2' : ∀ p q : Int, 0 ≤ p → p ≤ idx - 1 → idx - 1 < q → q < (arr1.size : Int) →
            (aget arr1 q.toNat).level ≤ (aget arr1 p.toNat).level := by
          intro p q hp0 hp hq hqs
          have hqv : (aget arr1 q.toNat).level ≤ (aget arr high.toNat).level := by
            by_cases hqh : q ≤ high
            · by_cases hqi : q = idx
              · rw [hqi, p6]
              · exact p8 q (by omega) hqh
            · rw [p9 q.toNat (by omega)]
              exact hpvq q (by omega) (by omega)
          by_cases hpl : p < low
          · have hpv : (aget arr high.toNat).level ≤ (aget arr1 p.toNat).level := by
              rw [p9 p.toNat (by omega)]
              exact hctx1 p high hp0 hpl (by omega) (by omega)
            exact le_trans hqv hpv
          · have hpv : (aget arr high.toNat).level < (aget arr1 p.toNat).level :=
              p7 p (by omega) (by omega)
            exact le_trans hqv (le_of_lt hpv)
        obtain ⟨r, g1, g2, g3, g4⟩ := ih arr1 low (idx-1) k (by omega) h0
          (by omega) hlk (by omega) hctx1' hctx2'
        refine ⟨r, ?_, by omega, g3.trans p3, ?_⟩
        · rw [quickSelect, if_pos ⟨hguard, h0⟩, p1]
          simp only [ok_bind]
          rw [if_neg (by omega)]
          exact g1
        · intro p q hp0 hp hq hqs
          exact g4 p q hp0 hp hq (by omega)
    · rw [quickSelect, if_neg (by omega)]
      refine ⟨arr, rfl, rfl, .refl _, ?_⟩
      intro p q hp0 hp hq hqs
      exact hctx1 p q hp0 (by omega) (by omega) hqs

end QuickSortSelect

section QuickSelectRankSpec

/-- Offline::quickSelectRank on any population: every element access is in
bounds (the call succeeds), the cutoff map is empty, and top_ is exactly the
floor(size/10) largest keys in ascending order. -/
theorem quickSelectRank_ok (players : Array Player) :
    ∃ res, quickSelectRank players = .ok res ∧
      res.cutoffs = [] ∧
      res.top.length = players.size / 10 ∧
      res.top.map Player.level =
        topKAsc (players.size / 10) (players.toList.map Player.level) := by
  have hkn : players.size / 10 ≤ players.size := Nat.div_le_self _ _
  obtain ⟨arr1, g1, g2, g3, g4⟩ := quickSelect_spec (players.size + 1) players 0
    ((players.size : Int) - 1) ((players.size / 10 : Nat) : Int)
    (by omega) (le_refl _) (by omega) (by omega) (by omega)
    (fun p q hp0 hp hq hqs => by omega)
    (fun p q hp0 hp hq hqs => by omega)
  obtain ⟨r, s1, s2, s3, s4, s5⟩ := quickSort_spec (players.size + 1) arr1 0
    (((players.size / 10 : Nat) : Int) - 1) (by omega) (by omega) (le_refl _)
    (by intro hlt; omega)
  have hszr : r.size = players.size := by omega
  have hlenr : r.toList.length = players.size := by simpa using hszr
  have heq : quickSelectRank players =
      .ok ⟨r.toList.take (players.size / 10), []⟩ := by
    unfold quickSelectRank
    rw [g1, ok_bind, s1, ok_bind]
    rfl
  set n := players.size with hn
  set k := n / 10 with hk
  have hlen : (r.toList.take k).length = k := by
    rw [List.length_take]
    omega
  refine ⟨⟨r.toList.take k, []⟩, heq, rfl, hlen, ?_⟩
  have hgett : ∀ u (hu : u < (r.toList.take k).length),
      (r.toList.take k)[u] = aget r u := by
    intro u hu
    rw [List.getElem_take, Array.getElem_toList]
    have hu2 : u < r.size := by rw [hszr]; rw [hlen] at hu; omega
    rw [aget_eq_getElem hu2]
  have hsorted : ((r.toList.take k).map Player.level).Sorted (· ≤ ·) := by
    rw [List.Sorted, List.pairwise_map, List.pairwise_iff_getElem]
    intro i j hi hj hij
    rw [hgett i hi, hgett j hj]
    have hjk : j < k := by rw [hlen] at hj; omega
    have := s4 (i : Int) (j : Int) (by omega) (by omega) (by omega)
    rw [show ((i : Int)).toNat = i from by omega, show ((j : Int)).toNat = j from by omega] at this
    exact this
  have htr := @seg_value_transfer arr1 r (by omega) s3 0 k (by omega)
    (by omega) (fun t ht => s5 t (by omega))
  have hcross : ∀ a ∈ (r.toList.drop k).map Player.level,
      ∀ b ∈ (r.toList.take k).map Player.level, a ≤ b := by
    intro a ha b hb
    rw [List.mem_map] at ha hb
    obtain ⟨xa, hxa, hae⟩ := ha
    obtain ⟨xb, hxb, hbe⟩ := hb
    rw [List.mem_iff_getElem] at hxa hxb
    obtain ⟨u, hu, hue⟩ := hxa
    obtain ⟨v, hv, hve⟩ := hxb
    have hu' : u < n - k := by rw [List.length_drop, hlenr] at hu; omega
    have hv' : v < k := by rw [List.length_take, hlenr] at hv; omega
    have hxau : xa = aget r (k + u) := by
      rw [← hue, List.getElem_drop, Array.getElem_toList]
      have : k + u < r.size := by omega
      rw [aget_eq_getElem this]
    have hxbv : xb = aget r v := by
      rw [← hve]
      exact hgett v hv
    -- value at position v in r comes from arr1's prefix [0, k)
    obtain ⟨v0, hv01, hv02, hv0e⟩ := htr v (by omega) hv'
    -- value at position k+u is unchanged by the sort
    have hku : aget r (k + u) = aget arr1 (k + u) := s5 (k+u) (by omega)
    have hpart := g4 (v0 : Int) ((k + u : Nat) : Int) (by omega) (by omega) (by omega)
      (by omega)
    rw [show (((k + u : Nat)) : Int).toNat = k + u from by omega,
      show ((v0 : Int)).toNat = v0 from by omega] at hpart
    rw [← hae, ← hbe, hxau, hxbv, hku, hv0e]
    exact hpart
  have hpermfull : ((r.toList.drop k).map Player.level ++
      (r.toList.take k).map Player.level).Perm (players.toList.map Player.level) := by
    refine List.Perm.trans List.perm_append_comm ?_
    rw [← List.map_append, List.take_append_drop]
    exact (s3.trans g3).map _
  have := top_eq_topKAsc (players.toList.map Player.level)
    ((r.toList.drop k).map Player.level)
    ((r.toList.take k).map Player.level) hpermfull hsorted hcross
  rw [this]
  congr 1
  rw [List.length_map, hlen]

end QuickSelectRankSpec

section StreamHelpers

theorem lookup_eq_none_of_forall {k : Nat} {l : List (Nat × Nat)}
    (h : ∀ mv ∈ l, mv.1 ≠ k) : List.lookup k l = none := by
  induction l with
  | nil => rfl
  | cons a t ih =>
    obtain ⟨m, v⟩ := a
    rw [List.lookup_cons]
    have hm : m ≠ k := h (m, v) (List.mem_cons_self _ _)
    have hbeq : (k == m) = false := by
      simp
      omega
    rw [hbeq]
    exact ih (fun mv hmv => h mv (List.mem_cons_of_mem _ hmv))

theorem mem_of_lookup_eq_some {k v : Nat} {l : List (Nat × Nat)}
    (h : List.lookup k l = some v) : (k, v) ∈ l := by
  induction l with
  | nil => exact absurd h (by simp [List.lookup])
  | cons a t ih =>
    obtain ⟨m, w⟩ := a
    rw [List.lookup_cons] at h
    by_cases hkm : k = m
    · have hbeq : (k == m) = true := by simp [hkm]
      rw [hbeq] at h
      simp at h
      subst hkm
      rw [← h]
      exact List.mem_cons_self _ _
    · have hbeq : (k == m) = false := by simp; omega
      rw [hbeq] at h
      exact List.mem_cons_of_mem _ (ih h)

theorem lookup_isSome_of_mem {k v : Nat} {l : List (Nat × Nat)}
    (h : (k, v) ∈ l) : (List.lookup k l).isSome := by
  induction l with
  | nil => exact absurd h (by simp)
  | cons a t ih =>
    obtain ⟨m, w⟩ := a
    rw [List.lookup_cons]
    by_cases hkm : k = m
    · have hbeq : (k == m) = true := by simp [hkm]
      rw [hbeq]
      rfl
    · have hbeq : (k == m) = false := by simp; omega
      rw [hbeq]
      rcases List.mem_cons.mp h with he | ht
      · exact absurd (congrArg Prod.fst he) hkm
      · exact ih ht

theorem pairwise_mono_lookup {l : List (Nat × Nat)}
    (hp : List.Pairwise (fun a b => a.1 < b.1 ∧ a.2 ≤ b.2) l)
    {m1 m2 v1 v2 : Nat} (h1 : List.lookup m1 l = some v1)
    (h2 : List.lookup m2 l = some v2) (hlt : m1 < m2) : v1 ≤ v2 := by
  have hm1 := mem_of_lookup_eq_some h1
  have hm2 := mem_of_lookup_eq_some h2
  rw [List.mem_iff_getElem] at hm1 hm2
  obtain ⟨i1, hi1, he1⟩ := hm1
  obtain ⟨i2, hi2, he2⟩ := hm2
  rw [List.pairwise_iff_getElem] at hp
  rcases Nat.lt_trichotomy i1 i2 with h | h | h
  · have := hp i1 i2 hi1 hi2 h
    rw [he1, he2] at this
    exact this.2
  · subst h
    rw [he1] at he2
    have : v1 = v2 := congrArg Prod.snd he2
    omega
  · have := hp i2 i1 hi2 hi1 h
    rw [he1, he2] at this
    omega

theorem map_level_sortModel (l : List Player) :
    (sortModel l).map Player.level = (l.map Player.level).insertionSort (· ≤ ·) := by
  have hp : ((sortModel l).map Player.level).Perm
      ((l.map Player.level).insertionSort (· ≤ ·)) := by
    refine List.Perm.trans ((List.perm_insertionSort _ l).map _) ?_
    exact (List.perm_insertionSort _ _).symm
  have hs1 : ((sortModel l).map Player.level).Pairwise (· ≤ ·) := by
    rw [List.pairwise_map]
    exact List.sorted_insertionSort _ l
  have hs2 : ((l.map Player.level).insertionSort (· ≤ ·)).Pairwise (· ≤ ·) :=
    List.sorted_insertionSort _ _
  exact List.eq_of_perm_of_sorted hp hs1 hs2

theorem sortModel_perm (l : List Player) : (sortModel l).Perm l :=
  List.perm_insertionSort _ l

theorem length_sortModel (l : List Player) : (sortModel l).length = l.length :=
  List.length_insertionSort _ l

theorem notEx_pure {α : Type} (a : α) : notEx (pure a : Except RtErr α) :=
  fun h => Except.noConfusion h

theorem notEx_error {α : Type} {e : RtErr} (h : e ≠ .exhausted) :
    notEx (.error e : Except RtErr α) := by
  intro hc
  injection hc with h2
  exact h h2

theorem notEx_bind {α β : Type} {x : Except RtErr α} {f : α → Except RtErr β}
    (hx : notEx x) (hf : ∀ a, notEx (f a)) : notEx (x >>= f) := by
  cases x with
  | ok a => exact hf a
  | error e =>
    intro hcon
    have h2 : (Except.error e : Except RtErr β) = Except.error RtErr.exhausted := hcon
    injection h2 with he
    exact hx (by rw [he])

theorem notEx_readH (arr : Array Player) (sz i : Nat) : notEx (readH arr sz i) := by
  unfold readH notEx
  split <;> simp

theorem notEx_writeH (arr : Array Player) (sz i : Nat) (v : Player) :
    notEx (writeH arr sz i v) := by
  unfold writeH notEx
  split <;> simp

theorem notEx_swapH (arr : Array Player) (sz i j : Nat) : notEx (swapH arr sz i j) := by
  unfold swapH notEx
  split <;> simp

theorem notEx_pdLoop (sz : Nat) (mx : Bool) (temp : Player) :
    ∀ (fuel : Nat) (arr : Array Player) (i : Nat), notEx (pdLoop sz mx temp fuel arr i) := by
  intro fuel
  induction fuel with
  | zero =>
    intro arr i
    exact notEx_error (by simp)
  | succ fuel ih =>
    intro arr i
    rw [pdLoop]
    split
    · apply notEx_bind (notEx_readH _ _ _)
      intro left
      have hjp : ∀ child : Nat, notEx (do
          let cv ← readH arr sz child
          if mx = true ∧ temp.level < cv.level then do
            let arr' ← swapH arr sz i child
            pdLoop sz mx temp fuel arr' child
          else if mx = false ∧ cv.level < temp.level then do
            let arr' ← swapH arr sz i child
            pdLoop sz mx temp fuel arr' child
          else (pure arr : Except RtErr (Array Player))) := by
        intro child
        apply notEx_bind (notEx_readH _ _ _)
        intro cv
        split
        · exact notEx_bind (notEx_swapH _ _ _ _) (fun a => ih a child)
        · split
          · exact notEx_bind (notEx_swapH _ _ _ _) (fun a => ih a child)
          · exact notEx_pure _
      simp only [pure_bind]
      split
      · apply notEx_bind (notEx_readH _ _ _)
        intro right
        split
        · exact hjp _
        · split
          · exact hjp _
          · exact hjp _
      · exact hjp _
    · exact notEx_pure _

theorem notEx_percolateDown (arr : Array Player) (sz root : Nat) (mx : Bool) :
    notEx (percolateDown arr sz root mx) := by
  unfold percolateDown
  exact notEx_bind (notEx_readH _ _ _) (fun temp => notEx_pdLoop _ _ _ _ _ _)

theorem notEx_mkHeapAux (sz : Nat) (mx : Bool) :
    ∀ (j : Nat) (arr : Array Player), notEx (mkHeapAux sz mx j arr) := by
  intro j
  induction j with
  | zero =>
    intro arr
    exact notEx_percolateDown _ _ _ _
  | succ j ih =>
    intro arr
    rw [mkHeapAux]
    exact notEx_bind (notEx_percolateDown _ _ _ _) (fun a => ih a)

theorem notEx_makeHeapModel (arr : Array Player) (sz : Nat) (mx : Bool) :
    notEx (makeHeapModel arr sz mx) := by
  unfold makeHeapModel
  split
  · exact notEx_pure _
  · exact notEx_mkHeapAux _ _ _ _

theorem notEx_replaceMin (arr : Array Player) (sz : Nat) (target : Player) :
    notEx (replaceMin arr sz target) := by
  unfold replaceMin
  exact notEx_bind (notEx_writeH _ _ _ _) (fun a => notEx_percolateDown _ _ _ _)

theorem notEx_rankLoop {σ : Type} (st : PlayerStream σ) (k : Nat)
    (hst : StreamContract st) :
    ∀ (fuel : Nat) (s : σ) (read : Nat) (minTop : Array Player)
      (cuts : List (Nat × Nat)), notEx (rankLoop st k fuel s read minTop cuts) := by
  intro fuel
  induction fuel with
  | zero =>
    intro s read minTop cuts
    exact notEx_error (by simp)
  | succ fuel ih =>
    intro s read minTop cuts
    rw [rankLoop]
    split
    · apply notEx_bind
      · intro hcon
        have hz : st.remaining s = 0 := (hst.1 s).mp ⟨_, hcon⟩
        omega
      · rintro ⟨p, s'⟩
        dsimp only
        split
        · apply notEx_bind (notEx_pure _)
          intro y
          split
          · exact notEx_bind (notEx_readH _ _ _)
              (fun r => notEx_bind (notEx_pure _) (fun c => ih s' (read+1) y c))
          · exact notEx_bind (notEx_pure _) (fun c => ih s' (read+1) y c)
        · split
          · apply notEx_bind (notEx_makeHeapModel _ _ _)
            intro y
            split
            · exact notEx_bind (notEx_readH _ _ _)
                (fun r => notEx_bind (notEx_pure _) (fun c => ih s' (read+1) y c))
            · exact notEx_bind (notEx_pure _) (fun c => ih s' (read+1) y c)
          · apply notEx_bind (notEx_readH _ _ _)
            intro front
            split
            · apply notEx_bind (notEx_replaceMin _ _ _)
              intro y
              split
              · exact notEx_bind (notEx_readH _ _ _)
                  (fun r => notEx_bind (notEx_pure _) (fun c => ih s' (read+1) y c))
              · exact notEx_bind (notEx_pure _) (fun c => ih s' (read+1) y c)
            · apply notEx_bind (notEx_pure _)
              intro y
              split
              · exact notEx_bind (notEx_readH _ _ _)
                  (fun r => notEx_bind (notEx_pure _) (fun c => ih s' (read+1) y c))
              · exact notEx_bind (notEx_pure _) (fun c => ih s' (read+1) y c)
    · apply notEx_bind (notEx_readH _ _ _)
      intro r
      exact notEx_pure _

end StreamHelpers

section StreamSpec

theorem lookup_append_of_none {k : Nat} {l l' : List (Nat × Nat)}
    (h : List.lookup k l = none) :
    List.lookup k (l ++ l') = List.lookup k l' := by
  induction l with
  | nil => rfl
  | cons a t ih =>
    obtain ⟨m, v⟩ := a
    rw [List.lookup_cons] at h
    rw [List.cons_append, List.lookup_cons]
    by_cases hkm : (k == m) = true
    · rw [hkm] at h
      exact absurd h (by simp)
    · have hf : (k == m) = false := by simpa using hkm
      rw [hf] at h ⊢
      exact ih h

theorem not_mem_of_lookup_none {k v : Nat} {l : List (Nat × Nat)}
    (h : List.lookup k l = none) : (k, v) ∉ l := by
  intro hmem
  have := lookup_isSome_of_mem hmem
  rw [h] at this
  exact absurd this (by simp)

/-- Pulling from a non-exhausted vector stream yields the record at the
cursor and advances the cursor. -/
theorem vs_next_ok (ps : List Player) (c : Nat) (h : c < ps.length) :
    vectorStream.nextPlayer ⟨ps, c⟩ = .ok (ps[c], ⟨ps, c + 1⟩) := by
  show VectorPlayerStream.nextPlayer ⟨ps, c⟩ = _
  unfold VectorPlayerStream.nextPlayer
  rw [dif_pos (by simpa using Nat.sub_pos_of_lt h)]
  rfl

/-- The vector-backed stream satisfies the Pull Sequence contract. -/
theorem vectorStream_contract : StreamContract vectorStream := by
  constructor
  · intro s
    obtain ⟨ps, c⟩ := s
    constructor
    · rintro ⟨e, he⟩
      by_contra hne
      have hlt : c < ps.length := by
        have : vectorStream.remaining ⟨ps, c⟩ = ps.length - c := rfl
        omega
      rw [vs_next_ok ps c hlt] at he
      exact Except.noConfusion he
    · intro h0
      refine ⟨.exhausted, ?_⟩
      have h0' : ps.length - c = 0 := h0
      show VectorPlayerStream.nextPlayer ⟨ps, c⟩ = _
      unfold VectorPlayerStream.nextPlayer
      rw [dif_neg (by show ¬ 0 < ps.length - c; omega)]
  · intro s p s' h
    obtain ⟨ps, c⟩ := s
    by_cases hlt : c < ps.length
    · rw [vs_next_ok ps c hlt] at h
      have h2 : s' = ⟨ps, c + 1⟩ := (congrArg Prod.snd (Except.ok.inj h)).symm
      subst h2
      show ps.length - (c + 1) + 1 = ps.length - c
      omega
    · have he : vectorStream.nextPlayer ⟨ps, c⟩ = .error .exhausted := by
        show VectorPlayerStream.nextPlayer ⟨ps, c⟩ = _
        unfold VectorPlayerStream.nextPlayer
        rw [dif_neg (by show ¬ 0 < ps.length - c; omega)]
      rw [he] at h
      exact Except.noConfusion h

/-- Inserting the milestone `c+1` with the current root key preserves the
cutoff-list invariant (the value bound moving to the new root key). -/
theorem insertCutoff_inv {k c : Nat} (hk : 1 ≤ k) {cuts : List (Nat × Nat)}
    {oldv newv : Nat}
    (hf : ∀ mv ∈ cuts, mv.1 % k = 0 ∧ 1 ≤ mv.1 ∧ mv.1 ≤ c ∧ mv.2 ≤ oldv)
    (hp : List.Pairwise (fun a b : Nat × Nat => a.1 < b.1 ∧ a.2 ≤ b.2) cuts)
    (hle : oldv ≤ newv) (hmod : (c + 1) % k = 0) :
    (∀ mv ∈ insertCutoff cuts (c + 1) newv,
        mv.1 % k = 0 ∧ 1 ≤ mv.1 ∧ mv.1 ≤ c + 1 ∧ mv.2 ≤ newv) ∧
    List.Pairwise (fun a b : Nat × Nat => a.1 < b.1 ∧ a.2 ≤ b.2)
      (insertCutoff cuts (c + 1) newv) ∧
    List.lookup (c + 1) (insertCutoff cuts (c + 1) newv) = some newv := by
  have hnone : List.lookup (c + 1) cuts = none := by
    apply lookup_eq_none_of_forall
    intro mv hmv
    have := hf mv hmv
    omega
  unfold insertCutoff
  rw [hnone]
  simp only [Option.isSome_none, Bool.false_eq_true, if_false]
  refine ⟨?_, ?_, ?_⟩
  · intro mv hmv
    rcases List.mem_append.mp hmv with h | h
    · have h2 := hf mv h
      exact ⟨h2.1, h2.2.1, by omega, by omega⟩
    · have h2 : mv = (c + 1, newv) := by simpa using h
      subst h2
      exact ⟨hmod, by omega, le_refl _, le_refl _⟩
  · rw [List.pairwise_append]
    refine ⟨hp, List.pairwise_singleton _ _, ?_⟩
    intro a ha b hb
    have h2 : b = (c + 1, newv) := by simpa using hb
    subst h2
    have h3 := hf a ha
    exact ⟨by omega, by omega⟩
  · rw [lookup_append_of_none hnone, List.lookup_cons]
    simp

/-- One pass of the cutoff-recording step of the loop body: the result is
`.ok` and the cutoff invariant is carried to count `c+1` with the new root
key as value bound. -/
theorem cuts_step_inv {k c : Nat} (hk : 1 ≤ k) {cuts : List (Nat × Nat)}
    {oldv : Nat} {minTop' : Array Player} (hpos : 0 < minTop'.size)
    (hf : ∀ mv ∈ cuts, mv.1 % k = 0 ∧ 1 ≤ mv.1 ∧ mv.1 ≤ c ∧ mv.2 ≤ oldv)
    (hp : List.Pairwise (fun a b : Nat × Nat => a.1 < b.1 ∧ a.2 ≤ b.2) cuts)
    (hle : oldv ≤ (aget minTop' 0).level) :
    ∃ cuts',
      (if (c + 1) % k = 0 ∧ minTop'.size ≠ 0 then do
          let r ← readH minTop' minTop'.size 0
          pure (insertCutoff cuts (c + 1) r.level)
        else pure cuts) = .ok cuts' ∧
      (∀ mv ∈ cuts', mv.1 % k = 0 ∧ 1 ≤ mv.1 ∧ mv.1 ≤ c + 1 ∧
        mv.2 ≤ (aget minTop' 0).level) ∧
      List.Pairwise (fun a b : Nat × Nat => a.1 < b.1 ∧ a.2 ≤ b.2) cuts' ∧
      (∀ v, List.lookup (c + 1) cuts' = some v → v = (aget minTop' 0).level) := by
  by_cases hcond : (c + 1) % k = 0 ∧ minTop'.size ≠ 0
  · rw [if_pos hcond, readH_ok hpos (le_refl _), ok_bind]
    obtain ⟨g1, g2, g3⟩ := insertCutoff_inv hk hf hp hle hcond.1
    refine ⟨insertCutoff cuts (c + 1) (aget minTop' 0).level, rfl, g1, g2, ?_⟩
    intro v hv
    rw [g3] at hv
    exact (Option.some.inj hv).symm
  · rw [if_neg hcond]
    refine ⟨cuts, rfl, ?_, hp, ?_⟩
    · intro mv hmv
      have h2 := hf mv hmv
      exact ⟨h2.1, h2.2.1, by omega, by omega⟩
    · intro v hv
      have h2 := mem_of_lookup_eq_some hv
      have h3 := hf _ h2
      omega

end StreamSpec

section StreamSpec2

theorem take_succ_of_lt {ps : List Player} {c : Nat} (h : c < ps.length) :
    ps.take (c + 1) = ps.take c ++ [ps[c]] := by
  rw [List.take_succ, List.getElem?_eq_getElem h]
  rfl

theorem cuts_keep_inv {k c : Nat} {cuts : List (Nat × Nat)} {oldv newv : Nat}
    (hf : ∀ mv ∈ cuts, mv.1 % k = 0 ∧ 1 ≤ mv.1 ∧ mv.1 ≤ c ∧ mv.2 ≤ oldv)
    (hle : oldv ≤ newv) :
    (∀ mv ∈ cuts, mv.1 % k = 0 ∧ 1 ≤ mv.1 ∧ mv.1 ≤ c + 1 ∧ mv.2 ≤ newv) ∧
    (∀ v, List.lookup (c + 1) cuts = some v → v = newv) := by
  constructor
  · intro mv hmv
    have h2 := hf mv hmv
    exact ⟨h2.1, h2.2.1, by omega, by omega⟩
  · intro v hv
    have h2 := mem_of_lookup_eq_some hv
    have h3 := hf _ h2
    omega

theorem toList_eq_segL_size (arr : Array Player) : segL arr arr.size = arr.toList := by
  unfold segL
  rw [← Array.length_toList, List.take_length]

theorem mem_toList_level_ge {minTop : Array Player} {k : Nat}
    (hheap : isHeap false minTop k) (hsz : minTop.size = k) :
    ∀ x ∈ minTop.toList, (aget minTop 0).level ≤ x.level := by
  intro x hx
  have hx2 : x ∈ segL minTop minTop.size := by
    rw [toList_eq_segL_size]
    exact hx
  obtain ⟨t, ht, he⟩ := (mem_segL (le_refl _)).mp hx2
  have h3 := isHeap_root_le hheap t (by omega)
  rw [he] at h3
  exact h3

end StreamSpec2

section StreamSpec3

/-- The while-loop of Online::rankIncoming on a vector-backed stream:
from any state satisfying the loop invariant and enough fuel, an empty
population faults out of bounds at the final unguarded `min_top[0]` read,
and a non-empty one terminates with count `ps.length`, the retained
collection and cutoff list satisfying the exit properties. -/
theorem rankLoop_spec {k : Nat} (hk : 1 ≤ k) (ps : List Player) :
    ∀ (fuel c : Nat) (minTop : Array Player) (cuts : List (Nat × Nat)),
      c ≤ ps.length → ps.length - c < fuel →
      RankInv k ps c minTop cuts →
      (ps.length = 0 →
        rankLoop vectorStream k fuel ⟨ps, c⟩ c minTop cuts = .error .oob) ∧
      (1 ≤ ps.length → ∃ minT cutsF,
        rankLoop vectorStream k fuel ⟨ps, c⟩ c minTop cuts =
          .ok (minT, cutsF, ps.length) ∧ RankPost k ps minT cutsF) := by
  intro fuel
  induction fuel with
  | zero =>
    intro c minTop cuts hc hfuel hinv
    omega
  | succ fuel ih =>
    intro c minTop cuts hc hfuel hinv
    unfold RankInv at hinv
    obtain ⟨hA, hB, hC, hD, hP, hL⟩ := hinv
    by_cases hlt : c < ps.length
    · have hrem : 0 < vectorStream.remaining ⟨ps, c⟩ := by
        show 0 < ps.length - c
        omega
      have hstep : ∃ minTop' cuts',
          rankLoop vectorStream k (fuel + 1) ⟨ps, c⟩ c minTop cuts =
            rankLoop vectorStream k fuel ⟨ps, c + 1⟩ (c + 1) minTop' cuts' ∧
          RankInv k ps (c + 1) minTop' cuts' := by
        rcases Nat.lt_trichotomy (c + 1) k with hcase | hcase | hcase
        · -- growth phase: push the record, no milestone is hit
          have hck : c < k := by omega
          have hempty : ∀ mv ∈ cuts, False := by
            intro mv hmv
            have h2 := hD mv hmv
            have h3 : k ≤ mv.1 := Nat.le_of_dvd (by omega) (Nat.dvd_of_mod_eq_zero h2.1)
            omega
          refine ⟨minTop.push ps[c], cuts, ?_, ?_⟩
          · rw [rankLoop, if_pos hrem, vs_next_ok ps c hlt]
            simp only [ok_bind]
            rw [if_pos hcase]
            simp only [pure_bind]
            rw [if_neg (by
              rintro ⟨hm, _⟩
              rw [Nat.mod_eq_of_lt hcase] at hm
              omega)]
          · unfold RankInv
            refine ⟨?_, ?_, ?_, ?_, hP, ?_⟩
            · rw [Array.size_push, hA]
              omega
            · intro h
              rw [Array.push_toList, hB hck, take_succ_of_lt hlt]
            · intro h
              omega
            · intro mv hmv
              exact (hempty mv hmv).elim
            · intro v hv
              exact (hempty _ (mem_of_lookup_eq_some hv)).elim
        · -- heap-build phase: push the k-th record and make_heap, milestone k
          have hck : c < k := by omega
          have hempty : ∀ mv ∈ cuts, False := by
            intro mv hmv
            have h2 := hD mv hmv
            have h3 : k ≤ mv.1 := Nat.le_of_dvd (by omega) (Nat.dvd_of_mod_eq_zero h2.1)
            omega
          have hpsz : (minTop.push ps[c]).size = k := by
            rw [Array.size_push, hA]
            omega
          obtain ⟨r, hr, hrsz, hrout, hrperm, hrheap⟩ :=
            makeHeapModel_spec (minTop.push ps[c]) (minTop.push ps[c]).size false (le_refl _)
          have hrszk : r.size = k := by rw [hrsz, hpsz]
          have hmod : (c + 1) % k = 0 := by rw [hcase, Nat.mod_self]
          obtain ⟨g1, g2, g3⟩ := @insertCutoff_inv k c hk cuts (aget r 0).level
            (aget r 0).level (fun mv hmv => (hempty mv hmv).elim) hP (le_refl _) hmod
          refine ⟨r, insertCutoff cuts (c + 1) (aget r 0).level, ?_, ?_⟩
          · rw [rankLoop, if_pos hrem, vs_next_ok ps c hlt]
            simp only [ok_bind]
            rw [if_neg (by omega), if_pos hcase, hr]
            simp only [ok_bind]
            rw [if_pos ⟨hmod, by omega⟩, readH_ok (by omega) (le_refl _)]
            simp only [ok_bind, pure_bind]
          · unfold RankInv
            refine ⟨?_, ?_, ?_, g1, g2, ?_⟩
            · rw [hrszk]
              omega
            · intro h
              omega
            · intro h
              refine ⟨?_, [], ?_, ?_⟩
              · rw [hpsz] at hrheap
                exact hrheap
              · rw [List.append_nil]
                have hseq : segL r (minTop.push ps[c]).size = r.toList := by
                  rw [← hrsz]
                  exact toList_eq_segL_size r
                have hseq2 : segL (minTop.push ps[c]) (minTop.push ps[c]).size =
                    (minTop.push ps[c]).toList := toList_eq_segL_size _
                have hp2 : r.toList.Perm (minTop.push ps[c]).toList := by
                  rw [← hseq, ← hseq2]
                  exact hrperm
                have hl3 : (minTop.push ps[c]).toList = ps.take (c + 1) := by
                  rw [Array.push_toList, hB hck, take_succ_of_lt hlt]
                rw [← hl3]
                exact hp2.symm
              · intro x hx
                exact absurd hx (List.not_mem_nil x)
            · intro v hv
              rw [g3] at hv
              exact (Option.some.inj hv).symm
        · -- steady phase: compare with the root, possibly replaceMin
          have hkc : k ≤ c := by omega
          obtain ⟨hheap, rest, hrest, hbound⟩ := hC hkc
          have hszk : minTop.size = k := by rw [hA]; omega
          have hpos0 : 0 < minTop.size := by omega
          have hlen0 : 0 < minTop.toList.length := by rw [Array.length_toList]; omega
          have hl0 : minTop.toList[0] = aget minTop 0 := by
            rw [aget_eq_getElem hpos0]
            exact Array.getElem_toList hpos0
          by_cases hcmp : (aget minTop 0).level ≤ (ps[c]).level
          · -- the new record displaces the minimum
            have hheap' : isHeap false minTop minTop.size := by
              rw [hszk]
              exact hheap
            obtain ⟨r, hr, hrsz, hrout, hrperm, hrheap⟩ :=
              replaceMin_spec minTop minTop.size ps[c] hpos0 (le_refl _) hheap'
            have hrpos : 0 < r.size := by omega
            have hsegm : segL minTop minTop.size = minTop.toList := toList_eq_segL_size minTop
            have hsegr : segL r minTop.size = r.toList := by
              rw [← hrsz]
              exact toList_eq_segL_size r
            have hset : r.toList.Perm ((minTop.toList).set 0 ps[c]) := by
              rw [← hsegm, ← hsegr]
              exact hrperm
            have hnew : (aget minTop 0).level ≤ (aget r 0).level := by
              have hm0 : aget r 0 ∈ r.toList := by
                rw [aget_eq_getElem hrpos, ← Array.getElem_toList hrpos]
                exact List.getElem_mem _
              have hm1 : aget r 0 ∈ (minTop.toList).set 0 ps[c] := hset.mem_iff.mp hm0
              rcases List.mem_or_eq_of_mem_set hm1 with hin | heq2
              · exact mem_toList_level_ge hheap hszk _ hin
              · rw [heq2]
                exact hcmp
            have hperm' : (ps.take (c + 1)).Perm
                (r.toList ++ (rest ++ [aget minTop 0])) := by
              have p1 : (ps.take c ++ [ps[c]]).Perm
                  ((minTop.toList ++ rest) ++ [ps[c]]) := hrest.append_right _
              have p2 : ((minTop.toList ++ rest) ++ [ps[c]]).Perm
                  (minTop.toList ++ ([ps[c]] ++ rest)) := by
                rw [List.append_assoc]
                exact List.Perm.append_left _ List.perm_append_comm
              have p3 : minTop.toList ++ ([ps[c]] ++ rest) =
                  (minTop.toList ++ [ps[c]]) ++ rest := (List.append_assoc _ _ _).symm
              have p4 : (minTop.toList ++ [ps[c]]).Perm (r.toList ++ [aget minTop 0]) := by
                have q2 := List.perm_append_singleton (minTop.toList[0])
                  ((minTop.toList).set 0 ps[c])
                have q3 := perm_cons_set minTop.toList 0 ps[c] hlen0
                have q4 := (List.perm_append_singleton ps[c] minTop.toList).symm
                have q5 : (r.toList ++ [aget minTop 0]).Perm
                    ((minTop.toList).set 0 ps[c] ++ [minTop.toList[0]]) := by
                  rw [hl0]
                  exact hset.append_right _
                exact (q5.trans ((q2.trans q3).trans q4)).symm
              have p5 : ((minTop.toList ++ [ps[c]]) ++ rest).Perm
                  ((r.toList ++ [aget minTop 0]) ++ rest) := p4.append_right _
              have p6 : (r.toList ++ [aget minTop 0]) ++ rest =
                  r.toList ++ ([aget minTop 0] ++ rest) := List.append_assoc _ _ _
              have p7 : (r.toList ++ ([aget minTop 0] ++ rest)).Perm
                  (r.toList ++ (rest ++ [aget minTop 0])) :=
                List.Perm.append_left _ List.perm_append_comm
              rw [take_succ_of_lt hlt]
              refine p1.trans (p2.trans ?_)
              rw [p3]
              refine p5.trans ?_
              rw [p6]
              exact p7
            have hABC : r.size = min k (c + 1) ∧ isHeap false r k := by
              constructor
              · rw [hrsz, hszk]
                omega
              · have h2 := hrheap
                rw [hszk] at h2
                exact h2
            have hbound' : ∀ x ∈ rest ++ [aget minTop 0],
                x.level ≤ (aget r 0).level := by
              intro x hx
              rcases List.mem_append.mp hx with h1 | h1
              · exact le_trans (hbound x h1) hnew
              · have h2 : x = aget minTop 0 := by simpa using h1
                rw [h2]
                exact hnew
            by_cases hcond : (c + 1) % k = 0 ∧ r.size ≠ 0
            · obtain ⟨g1, g2, g3⟩ := @insertCutoff_inv k c hk cuts
                (aget minTop 0).level (aget r 0).level hD hP hnew hcond.1
              refine ⟨r, insertCutoff cuts (c + 1) (aget r 0).level, ?_, ?_⟩
              · rw [rankLoop, if_pos hrem, vs_next_ok ps c hlt]
                simp only [ok_bind]
                rw [if_neg (by omega), if_neg (by omega),
                  readH_ok hpos0 (le_refl _)]
                simp only [ok_bind]
                rw [if_pos hcmp, hr]
                simp only [ok_bind]
                rw [if_pos hcond, readH_ok hrpos (le_refl _)]
                simp only [ok_bind, pure_bind]
              · unfold RankInv
                refine ⟨hABC.1, ?_, ?_, g1, g2, ?_⟩
                · intro h
                  omega
                · intro h
                  exact ⟨hABC.2, rest ++ [aget minTop 0], hperm', hbound'⟩
                · intro v hv
                  rw [g3] at hv
                  exact (Option.some.inj hv).symm
            · obtain ⟨g1, gL⟩ := @cuts_keep_inv k c cuts (aget minTop 0).level
                (aget r 0).level hD hnew
              refine ⟨r, cuts, ?_, ?_⟩
              · rw [rankLoop, if_pos hrem, vs_next_ok ps c hlt]
                simp only [ok_bind]
                rw [if_neg (by omega), if_neg (by omega),
                  readH_ok hpos0 (le_refl _)]
                simp only [ok_bind]
                rw [if_pos hcmp, hr]
                simp only [ok_bind]
                rw [if_neg hcond]
                simp only [pure_bind]
              · unfold RankInv
                refine ⟨hABC.1, ?_, ?_, g1, hP, gL⟩
                · intro h
                  omega
                · intro h
                  exact ⟨hABC.2, rest ++ [aget minTop 0], hperm', hbound'⟩
          · -- the new record is discarded
            have hplt : (ps[c]).level ≤ (aget minTop 0).level := by omega
            have hperm' : (ps.take (c + 1)).Perm
                (minTop.toList ++ (rest ++ [ps[c]])) := by
              rw [take_succ_of_lt hlt]
              have p3 : minTop.toList ++ (rest ++ [ps[c]]) =
                  (minTop.toList ++ rest) ++ [ps[c]] := (List.append_assoc _ _ _).symm
              rw [p3]
              exact hrest.append_right _
            have hbound' : ∀ x ∈ rest ++ [ps[c]],
                x.level ≤ (aget minTop 0).level := by
              intro x hx
              rcases List.mem_append.mp hx with h1 | h1
              · exact hbound x h1
              · have h2 : x = ps[c] := by simpa using h1
                rw [h2]
                exact hplt
            by_cases hcond : (c + 1) % k = 0 ∧ minTop.size ≠ 0
            · obtain ⟨g1, g2, g3⟩ := @insertCutoff_inv k c hk cuts
                (aget minTop 0).level (aget minTop 0).level hD hP (le_refl _) hcond.1
              refine ⟨minTop, insertCutoff cuts (c + 1) (aget minTop 0).level, ?_, ?_⟩
              · rw [rankLoop, if_pos hrem, vs_next_ok ps c hlt]
                simp only [ok_bind]
                rw [if_neg (by omega), if_neg (by omega),
                  readH_ok hpos0 (le_refl _)]
                simp only [ok_bind]
                rw [if_neg hcmp]
                simp only [pure_bind]
                rw [if_pos hcond, readH_ok hpos0 (le_refl _)]
                simp only [ok_bind, pure_bind]
              · unfold RankInv
                refine ⟨?_, ?_, ?_, g1, g2, ?_⟩
                · rw [hszk]
                  omega
                · intro h
                  omega
                · intro h
                  exact ⟨hheap, rest ++ [ps[c]], hperm', hbound'⟩
                · intro v hv
                  rw [g3] at hv
                  exact (Option.some.inj hv).symm
            · obtain ⟨g1, gL⟩ := @cuts_keep_inv k c cuts (aget minTop 0).level
                (aget minTop 0).level hD (le_refl _)
              refine ⟨minTop, cuts, ?_, ?_⟩
              · rw [rankLoop, if_pos hrem, vs_next_ok ps c hlt]
                simp only [ok_bind]
                rw [if_neg (by omega), if_neg (by omega),
                  readH_ok hpos0 (le_refl _)]
                simp only [ok_bind]
                rw [if_neg hcmp]
                simp only [pure_bind]
                rw [if_neg hcond]
              · unfold RankInv
                refine ⟨?_, ?_, ?_, g1, hP, gL⟩
                · rw [hszk]
                  omega
                · intro h
                  omega
                · intro h
                  exact ⟨hheap, rest ++ [ps[c]], hperm', hbound'⟩
      obtain ⟨minTop', cuts', heq, hinv'⟩ := hstep
      rw [heq]
      exact ⟨fun h0 => absurd h0 (by omega),
        fun h1 => (ih (c + 1) minTop' cuts' (by omega) (by omega) hinv').2 h1⟩
    · -- the stream is exhausted: c = ps.length
      have hceq : c = ps.length := by omega
      subst hceq
      have hrem : ¬ 0 < vectorStream.remaining ⟨ps, ps.length⟩ := by
        show ¬ 0 < ps.length - ps.length
        omega
      rw [rankLoop, if_neg hrem]
      constructor
      · intro h0
        have hsz0 : minTop.size = 0 := by rw [hA]; omega
        rw [readH_oob (by omega)]
        rfl
      · intro h1
        have hpos : 0 < minTop.size := by rw [hA]; omega
        rw [readH_ok hpos (le_refl _)]
        simp only [ok_bind]
        have hPostB : ps.length < k → minTop.toList = ps := by
          intro h
          rw [hB h]
          simp
        have hPostC : k ≤ ps.length → isHeap false minTop k ∧
            ∃ rest : List Player, ps.Perm (minTop.toList ++ rest) ∧
              ∀ x ∈ rest, x.level ≤ (aget minTop 0).level := by
          intro h
          obtain ⟨hh, rest, hp1, hp2⟩ := hC h
          refine ⟨hh, rest, ?_, hp2⟩
          rw [List.take_length] at hp1
          exact hp1
        cases hlook : List.lookup ps.length cuts with
        | some v =>
          have heqc : insertCutoff cuts ps.length (aget minTop 0).level = cuts := by
            unfold insertCutoff
            rw [hlook]
            rfl
          rw [heqc]
          refine ⟨minTop, cuts, rfl, ?_⟩
          unfold RankPost
          refine ⟨hA, hPostB, hPostC, hP, ?_, ?_⟩
          · exact hlook.trans (congrArg some (hL v hlook))
          · intro mv hmv
            have h2 := hD mv hmv
            exact ⟨h2.2.1, h2.2.2.1⟩
        | none =>
          have heqc : insertCutoff cuts ps.length (aget minTop 0).level =
              cuts ++ [(ps.length, (aget minTop 0).level)] := by
            unfold insertCutoff
            rw [hlook]
            rfl
          rw [heqc]
          refine ⟨minTop, cuts ++ [(ps.length, (aget minTop 0).level)], rfl, ?_⟩
          unfold RankPost
          refine ⟨hA, hPostB, hPostC, ?_, ?_, ?_⟩
          · rw [List.pairwise_append]
            refine ⟨hP, List.pairwise_singleton _ _, ?_⟩
            intro a ha b hb
            have hb2 : b = (ps.length, (aget minTop 0).level) := by simpa using hb
            subst hb2
            have h2 := hD a ha
            have hne : a.1 ≠ ps.length := by
              intro hcontr
              have h3 : (a.1, a.2) ∈ cuts := by
                rw [Prod.mk.eta]
                exact ha
              rw [hcontr] at h3
              exact not_mem_of_lookup_none hlook h3
            exact ⟨by omega, by omega⟩
          · rw [lookup_append_of_none hlook, List.lookup_cons]
            simp
          · intro mv hmv
            rcases List.mem_append.mp hmv with h2 | h2
            · have h3 := hD mv h2
              exact ⟨h3.2.1, h3.2.2.1⟩
            · have h3 : mv = (ps.length, (aget minTop 0).level) := by simpa using h2
              subst h3
              exact ⟨by omega, le_refl _⟩

end StreamSpec3

section StreamWrap

theorem rankInv_init {k : Nat} (hk : 1 ≤ k) (ps : List Player) :
    RankInv k ps 0 #[] [] := by
  unfold RankInv
  refine ⟨?_, fun h => rfl, fun h => absurd h (by omega),
    fun mv hmv => absurd hmv (List.not_mem_nil mv), List.Pairwise.nil,
    fun v hv => Option.noConfusion hv⟩
  rw [Nat.min_zero]
  rfl

/-- Online::rankIncoming over the vector stream of `ps` with `k ≥ 1` and at
least one record: it returns the retained collection sorted ascending along
with the accumulated cutoffs, and the loop's exit properties hold. -/
theorem rankIncomingV_spec (ps : List Player) (k : Nat) (hk : 1 ≤ k)
    (hps : 1 ≤ ps.length) :
    ∃ minT cutsF,
      rankIncomingV ps k = .ok ⟨sortModel minT.toList, cutsF⟩ ∧
      RankPost k ps minT cutsF := by
  obtain ⟨minT, cutsF, hok, hpost⟩ :=
    (rankLoop_spec hk ps (ps.length + 1) 0 #[] [] (by omega) (by omega)
      (rankInv_init hk ps)).2 hps
  refine ⟨minT, cutsF, ?_, hpost⟩
  unfold rankIncomingV rankIncoming
  rw [hok]
  rfl

/-- rankIncoming on an exhausted (empty) stream: the unguarded final
`min_top[0]` read faults out of bounds. -/
theorem rankIncomingV_empty (k : Nat) (hk : 1 ≤ k) :
    rankIncomingV [] k = .error .oob := by
  have h := (rankLoop_spec hk [] (([] : List Player).length + 1) 0 #[] []
    (by omega) (by omega) (rankInv_init hk [])).1 rfl
  unfold rankIncomingV rankIncoming
  rw [h]
  rfl

/-- From the exit properties: the keys of the sorted retained collection are
exactly the `min k L` largest streamed keys in ascending order. -/
theorem post_top_keys {k : Nat} {ps : List Player} {minT : Array Player}
    {cutsF : List (Nat × Nat)} (hk : 1 ≤ k) (hpost : RankPost k ps minT cutsF) :
    (sortModel minT.toList).map Player.level =
      topKAsc (min k ps.length) (ps.map Player.level) := by
  unfold RankPost at hpost
  obtain ⟨hA, hB, hC, hP, hLk, hBnd⟩ := hpost
  by_cases h : ps.length < k
  · rw [hB h, map_level_sortModel]
    unfold topKAsc
    have hmin : min k ps.length = ps.length := by omega
    rw [hmin, List.length_map]
    simp
  · push_neg at h
    obtain ⟨hheap, rest, hperm, hbnd⟩ := hC h
    have hmin : min k ps.length = k := by omega
    rw [hmin]
    have hszk : minT.size = k := by rw [hA, hmin]
    have htop := top_eq_topKAsc (ps.map Player.level) (rest.map Player.level)
      ((sortModel minT.toList).map Player.level) ?_ ?_ ?_
    · have hlen : ((sortModel minT.toList).map Player.level).length = k := by
        rw [List.length_map, length_sortModel, Array.length_toList, hszk]
      rw [hlen] at htop
      exact htop
    · have h1 : ((sortModel minT.toList).map Player.level).Perm
          (minT.toList.map Player.level) := (sortModel_perm _).map _
      have h2 : (rest.map Player.level ++
          (sortModel minT.toList).map Player.level).Perm
          (rest.map Player.level ++ minT.toList.map Player.level) :=
        List.Perm.append_left _ h1
      have h5 : ((minT.toList ++ rest).map Player.level).Perm
          (ps.map Player.level) := (hperm.map _).symm
      rw [List.map_append] at h5
      exact h2.trans (List.perm_append_comm.trans h5)
    · rw [map_level_sortModel]
      exact List.sorted_insertionSort _ _
    · intro a ha b hb
      obtain ⟨x, hx, hxa⟩ := List.mem_map.mp ha
      obtain ⟨y, hy, hyb⟩ := List.mem_map.mp hb
      have hy2 : y ∈ minT.toList := (sortModel_perm _).subset hy
      have h6 : (aget minT 0).level ≤ y.level := mem_toList_level_ge hheap hszk y hy2
      have h7 : x.level ≤ (aget minT 0).level := hbnd x hx
      omega

/-- From the exit properties, with at least `k` records streamed: the root of
the retained min-heap carries the smallest key of the returned top set. -/
theorem post_root_min {k : Nat} {ps : List Player} {minT : Array Player}
    {cutsF : List (Nat × Nat)} (hk : 1 ≤ k) (hpost : RankPost k ps minT cutsF)
    (h : k ≤ ps.length) :
    (aget minT 0).level ∈ (sortModel minT.toList).map Player.level ∧
    ∀ x ∈ (sortModel minT.toList).map Player.level, (aget minT 0).level ≤ x := by
  unfold RankPost at hpost
  obtain ⟨hA, hB, hC, hP, hLk, hBnd⟩ := hpost
  obtain ⟨hheap, rest, hperm, hbnd⟩ := hC h
  have hszk : minT.size = k := by
    rw [hA]
    omega
  have hpos : 0 < minT.size := by omega
  constructor
  · apply List.mem_map.mpr
    refine ⟨aget minT 0, ?_, rfl⟩
    apply (sortModel_perm _).symm.subset
    rw [aget_eq_getElem hpos, ← Array.getElem_toList hpos]
    exact List.getElem_mem _
  · intro x hx
    obtain ⟨y, hy, hxy⟩ := List.mem_map.mp hx
    have hy2 : y ∈ minT.toList := (sortModel_perm _).subset hy
    have h6 := mem_toList_level_ge hheap hszk y hy2
    omega

/-- Cutoff values recorded by rankIncoming over a vector stream are
non-decreasing along increasing milestone keys. -/
theorem rankIncomingV_cutoffs_mono (ps : List Player) (k : Nat) (hk : 1 ≤ k)
    {res : RankingResult} (hres : rankIncomingV ps k = .ok res)
    {m1 m2 v1 v2 : Nat} (h1 : List.lookup m1 res.cutoffs = some v1)
    (h2 : List.lookup m2 res.cutoffs = some v2) (hlt : m1 < m2) : v1 ≤ v2 := by
  by_cases hps : 1 ≤ ps.length
  · obtain ⟨minT, cutsF, hok, hpost⟩ := rankIncomingV_spec ps k hk hps
    rw [hok] at hres
    have hres2 : res = ⟨sortModel minT.toList, cutsF⟩ := (Except.ok.inj hres).symm
    subst hres2
    unfold RankPost at hpost
    exact pairwise_mono_lookup hpost.2.2.2.1 h1 h2 hlt
  · have hnil : ps = [] := by
      cases ps with
      | nil => rfl
      | cons a t => exact absurd (by simp) hps
    subst hnil
    rw [rankIncomingV_empty k hk] at hres
    exact Except.noConfusion hres

end StreamWrap

section Claims

/-- Claim C1: the multiset of rank keys in the returned `top_` equals the
appropriate number of largest input keys, ascending: `floor(size/10)` of them
for heapRank (size ≥ 2) and quickSelectRank (size ≥ 2), and
`min(reportingInterval, totalStreamed)` of them for rankIncoming over a
vector-backed stream of at least one record with interval ≥ 1. -/
theorem claim_top_multiset :
    (∀ players : Array Player, 2 ≤ players.size →
      ∃ res, heapRank players = .ok res ∧
        res.top.map Player.level =
          topKAsc (players.size / 10) (players.toList.map Player.level)) ∧
    (∀ players : Array Player, 2 ≤ players.size →
      ∃ res, quickSelectRank players = .ok res ∧
        res.top.map Player.level =
          topKAsc (players.size / 10) (players.toList.map Player.level)) ∧
    (∀ (ps : List Player) (k : Nat), 1 ≤ ps.length → 1 ≤ k →
      ∃ res, rankIncomingV ps k = .ok res ∧
        res.top.map Player.level =
          topKAsc (min k ps.length) (ps.map Player.level)) := by
  refine ⟨?_, ?_, ?_⟩
  · intro players h2
    obtain ⟨res, h, _, _, htop⟩ := heapRank_ok players h2
    exact ⟨res, h, htop⟩
  · intro players h2
    obtain ⟨res, h, _, _, htop⟩ := quickSelectRank_ok players
    exact ⟨res, h, htop⟩
  · intro ps k hps hk
    obtain ⟨minT, cutsF, hok, hpost⟩ := rankIncomingV_spec ps k hk hps
    exact ⟨⟨sortModel minT.toList, cutsF⟩, hok, post_top_keys hk hpost⟩

theorem claim_top_multiset_witness :
    ∃ res, rankIncomingV exPlayers 2 = .ok res ∧
      res.top.map Player.level =
        topKAsc (min 2 exPlayers.length) (exPlayers.map Player.level) :=
  claim_top_multiset.2.2 exPlayers 2 (by decide) (by decide)

/-- Claim C2 (amended): `|top| = floor(size/10)` holds for quickSelectRank at
every size and for heapRank at every size other than 1; at size exactly 1
heapRank's early return hands back the whole population instead. -/
theorem claim_size_law :
    (∀ players : Array Player, players.size ≠ 1 →
      ∃ res, heapRank players = .ok res ∧ res.top.length = players.size / 10) ∧
    (∀ players : Array Player,
      ∃ res, quickSelectRank players = .ok res ∧
        res.top.length = players.size / 10) := by
  constructor
  · intro players hne
    by_cases h0 : players.size = 0
    · refine ⟨⟨players.toList, []⟩, ?_, ?_⟩
      · unfold heapRank
        rw [if_pos (by omega)]
        rfl
      · show players.toList.length = players.size / 10
        rw [Array.length_toList]
        omega
    · obtain ⟨res, h, _, hlen, _⟩ := heapRank_ok players (by omega)
      exact ⟨res, h, hlen⟩
  · intro players
    obtain ⟨res, h, _, hlen, _⟩ := quickSelectRank_ok players
    exact ⟨res, h, hlen⟩

/-- Claim C2 counterexample: at population size 1, heapRank returns the
whole population (`|top| = 1`), not `floor(0.1 * 1) = 0`. -/
theorem claim_size_law_counterexample :
    ∃ res, heapRank #[(⟨"a", 1⟩ : Player)] = .ok res ∧
      res.top.length = 1 ∧ (#[(⟨"a", 1⟩ : Player)]).size / 10 = 0 :=
  ⟨⟨[⟨"a", 1⟩], []⟩, rfl, rfl, rfl⟩

theorem claim_size_law_witness :
    ∃ res, heapRank (#[] : Array Player) = .ok res ∧
      res.top.length = (#[] : Array Player).size / 10 :=
  claim_size_law.1 #[] (by decide)

/-- Claim C3 (amended): for a vector-backed stream of `L ≥ 1` records and
interval `k ≥ 1`, the total count `L` is always a key of `cutoffs_`; its
value is the smallest key of the returned `top_` set whenever at least `k`
records were streamed (when `L < k` the recorded value is `minTop[0]`'s key
of the unheapified buffer, which need not be the minimum). -/
theorem claim_final_cutoff (ps : List Player) (k : Nat) (hk : 1 ≤ k)
    (hps : 1 ≤ ps.length) :
    ∃ res v, rankIncomingV ps k = .ok res ∧
      List.lookup ps.length res.cutoffs = some v ∧
      (k ≤ ps.length →
        v ∈ res.top.map Player.level ∧
        ∀ x ∈ res.top.map Player.level, v ≤ x) := by
  obtain ⟨minT, cutsF, hok, hpost⟩ := rankIncomingV_spec ps k hk hps
  have hpost' := hpost
  unfold RankPost at hpost'
  refine ⟨⟨sortModel minT.toList, cutsF⟩, (aget minT 0).level, hok,
    hpost'.2.2.2.2.1, ?_⟩
  intro h
  exact post_root_min hk hpost h

/-- Claim C3 counterexample: two records keyed 5 then 3 at interval 5; the
final cutoff entry is `2 ↦ 5` but the smallest key of the returned top set
is 3, so the recorded value is not the true final minimum threshold. -/
theorem claim_final_cutoff_counterexample :
    ∃ res, rankIncomingV cexPlayers 5 = .ok res ∧
      List.lookup cexPlayers.length res.cutoffs = some 5 ∧
      res.top.map Player.level = [3, 5] ∧ (5 : Nat) ≠ 3 :=
  ⟨⟨[⟨"b", 3⟩, ⟨"a", 5⟩], [(2, 5)]⟩, rfl, by decide, by decide, by decide⟩

theorem claim_final_cutoff_witness :
    ∃ res v, rankIncomingV exPlayers 2 = .ok res ∧
      List.lookup exPlayers.length res.cutoffs = some v ∧
      (2 ≤ exPlayers.length →
        v ∈ res.top.map Player.level ∧
        ∀ x ∈ res.top.map Player.level, v ≤ x) :=
  claim_final_cutoff exPlayers 2 (by decide) (by decide)

/-- Claim C4: on an already-exhausted stream the code does not produce the
empty result the spec asks for: the unguarded final `min_top[0]` read is an
out-of-bounds access (surfacing as `.error .oob` in the embedding), for
every reporting interval ≥ 1. -/
theorem claim_empty_stream_oob :
    ∀ k : Nat, rankIncomingV [] (k + 1) = .error .oob :=
  fun k => rankIncomingV_empty (k + 1) (by omega)

/-- Claim C5 (amended): recorded cutoff values are in fact monotonically
non-decreasing along increasing milestone keys, for every vector-backed
stream and interval ≥ 1 — the spec's claim that decreases can occur is
refuted. -/
theorem claim_cutoff_monotone (ps : List Player) (k : Nat) (hk : 1 ≤ k)
    (res : RankingResult) (hres : rankIncomingV ps k = .ok res)
    (m1 m2 v1 v2 : Nat) (h1 : List.lookup m1 res.cutoffs = some v1)
    (h2 : List.lookup m2 res.cutoffs = some v2) (hlt : m1 < m2) : v1 ≤ v2 :=
  rankIncomingV_cutoffs_mono ps k hk hres h1 h2 hlt

/-- Claim C5 counterexample (to the spec's existential): no vector-backed
stream, interval ≥ 1, and recorded milestones `m1 < m2` exhibit
`cutoffs[m2] < cutoffs[m1]`. -/
theorem claim_cutoff_monotone_counterexample :
    ¬ ∃ (ps : List Player) (k m1 m2 v1 v2 : Nat) (res : RankingResult),
      1 ≤ k ∧ rankIncomingV ps k = .ok res ∧
      List.lookup m1 res.cutoffs = some v1 ∧
      List.lookup m2 res.cutoffs = some v2 ∧ m1 < m2 ∧ v2 < v1 := by
  rintro ⟨ps, k, m1, m2, v1, v2, res, hk, hres, h1, h2, hlt, hdec⟩
  have := rankIncomingV_cutoffs_mono ps k hk hres h1 h2 hlt
  omega

theorem claim_cutoff_monotone_witness :
    rankIncomingV exPlayers 2 = .ok exResult ∧ (10 : Nat) ≤ 50 :=
  ⟨rfl, claim_cutoff_monotone exPlayers 2 (by decide) exResult rfl
    2 4 10 50 (by decide) (by decide) (by decide)⟩

/-- Claim C6 (amended): for a vector-backed stream of `L ≥ 1` records and
interval `k ≥ 1`, `|top| = min(k, L)`; with zero records streamed there is
no result at all (the final `min_top[0]` read faults). -/
theorem claim_top_size (ps : List Player) (k : Nat) (hk : 1 ≤ k)
    (hps : 1 ≤ ps.length) :
    ∃ res, rankIncomingV ps k = .ok res ∧ res.top.length = min k ps.length := by
  obtain ⟨minT, cutsF, hok, hpost⟩ := rankIncomingV_spec ps k hk hps
  refine ⟨⟨sortModel minT.toList, cutsF⟩, hok, ?_⟩
  show (sortModel minT.toList).length = min k ps.length
  rw [length_sortModel, Array.length_toList]
  unfold RankPost at hpost
  exact hpost.1

/-- Claim C6 counterexample: on the empty stream rankIncoming returns no
result whose `top_` could have length `min(k, 0) = 0`; it faults instead. -/
theorem claim_top_size_counterexample :
    rankIncomingV [] 1 = .error .oob ∧
    ∀ res : RankingResult, rankIncomingV [] 1 ≠ .ok res := by
  have h0 : rankIncomingV [] 1 = .error .oob := rfl
  refine ⟨h0, ?_⟩
  intro res h
  rw [h0] at h
  exact Except.noConfusion h

theorem claim_top_size_witness :
    ∃ res, rankIncomingV cexPlayers 5 = .ok res ∧
      res.top.length = min 5 cexPlayers.length :=
  claim_top_size cexPlayers 5 (by decide) (by decide)

/-- Claim C7 (amended): if the range `[0, sz)` is heap-ordered at every
parent other than `root`, percolateDown restores the heap-order invariant on
the subtree rooted at `root`, leaves every slot outside that subtree (and at
or past `sz`) untouched, permutes only the range, and never reads at or past
`sz` (every access is checked, and the call returns `.ok`), the only-left-
child case included; the invariant is restored on the whole range when
`root` is the start of the range — but not in general for an interior root,
since fixing the subtree can break the edge from `root`'s parent. -/
theorem claim_percolate_restores (mx : Bool) (arr : Array Player) (sz root : Nat)
    (hroot : root < sz) (hsz : sz ≤ arr.size)
    (hA : ∀ p c, (c = 2*p+1 ∨ c = 2*p+2) → c < sz → p ≠ root →
      heapLe mx (aget arr p) (aget arr c)) :
    ∃ r, percolateDown arr sz root mx = .ok r ∧
      r.size = arr.size ∧
      (∀ t, desc root t = false ∨ sz ≤ t → aget r t = aget arr t) ∧
      (segL r sz).Perm (segL arr sz) ∧
      (∀ p c, (c = 2*p+1 ∨ c = 2*p+2) → c < sz → desc root p = true →
        heapLe mx (aget r p) (aget r c)) ∧
      (root = 0 → isHeap mx r sz) := by
  obtain ⟨r, h1, h2, h3, h4, h5, h6⟩ := percolateDown_spec mx arr sz root hroot hsz
    (fun p c hc hcsz hdp hp => hA p c hc hcsz hp)
  refine ⟨r, h1, h2, h3, h4, h5, ?_⟩
  intro h0
  subst h0
  apply isHeap_of_heapAll
  intro p c hc hcsz hdp
  exact h5 p c hc hcsz hdp

/-- Claim C7 counterexample: `[5, 100, 6, 2, 3]` is (min-)heap-ordered at
every parent except index 1, yet percolateDown at root 1 yields
`[5, 2, 6, 100, 3]`, which violates the heap order at the edge 0 → 1: the
invariant is not restored on the whole range. -/
theorem claim_percolate_counterexample :
    (∀ p, p < 5 → ∀ c, c < 5 → (c = 2*p+1 ∨ c = 2*p+2) → p ≠ 1 →
      heapLe false (aget cexHeap p) (aget cexHeap c)) ∧
    percolateDown cexHeap 5 1 false = .ok cexHeapOut ∧
    ¬ isHeap false cexHeapOut 5 := by
  refine ⟨by decide, rfl, by decide⟩

theorem claim_percolate_witness :
    ∃ r, percolateDown #[(⟨"a", 2⟩ : Player), ⟨"b", 1⟩] 2 0 false = .ok r ∧
      r.size = (#[(⟨"a", 2⟩ : Player), ⟨"b", 1⟩] : Array Player).size ∧
      (∀ t, desc 0 t = false ∨ 2 ≤ t →
        aget r t = aget #[(⟨"a", 2⟩ : Player), ⟨"b", 1⟩] t) ∧
      (segL r 2).Perm (segL #[(⟨"a", 2⟩ : Player), ⟨"b", 1⟩] 2) ∧
      (∀ p c, (c = 2*p+1 ∨ c = 2*p+2) → c < 2 → desc 0 p = true →
        heapLe false (aget r p) (aget r c)) ∧
      (0 = 0 → isHeap false r 2) :=
  claim_percolate_restores false #[⟨"a", 2⟩, ⟨"b", 1⟩] 2 0 (by decide) (by decide)
    (by
      intro p c hc hcsz hp
      rcases hc with h | h <;> omega)

/-- Claim C8: the spec's worked example: streaming keys 10, 50, 5, 90, 30 at
interval 2 returns top keys `[50, 90]` ascending with cutoffs
`{2 ↦ 10, 4 ↦ 50, 5 ↦ 50}`. -/
theorem claim_example_run :
    ∃ res, rankIncomingV exPlayers 2 = .ok res ∧
      res.top.map Player.level = [50, 90] ∧
      List.lookup 2 res.cutoffs = some 10 ∧
      List.lookup 4 res.cutoffs = some 50 ∧
      List.lookup 5 res.cutoffs = some 50 ∧
      res.cutoffs.map Prod.fst = [2, 4, 5] :=
  ⟨exResult, rfl, by decide, by decide, by decide, by decide, by decide⟩

/-- Claim C9: for every stream satisfying the Pull Sequence contract,
rankIncoming never pulls from an exhausted source, so an ExhaustedSource
error is never raised; and the vector-backed stream satisfies the contract
(its `nextPlayer` throws exactly when `remaining() = 0`, each pull
decrementing `remaining`). -/
theorem claim_no_exhausted :
    (∀ (σ : Type) (st : PlayerStream σ), StreamContract st →
      ∀ (s : σ) (k fuel : Nat),
        rankIncoming st s k fuel ≠ .error .exhausted) ∧
    StreamContract vectorStream := by
  constructor
  · intro σ st hst s k fuel
    show notEx (rankIncoming st s k fuel)
    unfold rankIncoming
    apply notEx_bind (notEx_rankLoop st k hst fuel s 0 #[] [])
    rintro ⟨minTop, cuts, n⟩
    exact notEx_pure _
  · exact vectorStream_contract

theorem claim_no_exhausted_witness :
    rankIncoming vectorStream ⟨[⟨"a", 1⟩], 0⟩ 1 2 ≠ .error .exhausted :=
  claim_no_exhausted.1 VectorPlayerStream vectorStream vectorStream_contract
    ⟨[⟨"a", 1⟩], 0⟩ 1 2

/-- Claim C10: quickSelectRank succeeds on every input vector: every array
access performed along the way — by quickSelect, lomuto_partition,
quickSort and hoare_partition, the scans' boundary excursions included — is
in bounds (in the embedding every access is bounds-checked and an
out-of-bounds index would surface as `.error .oob`). -/
theorem claim_quickselect_inbounds :
    ∀ players : Array Player, ∃ res, quickSelectRank players = .ok res := by
  intro players
  obtain ⟨res, h, _⟩ := quickSelectRank_ok players
  exact ⟨res, h⟩

end Claims
